import Mathlib

/-!
Verification of the FORGED-LRO cryptographic core (Go) against its
specification: hex codec and validators, SHA-256, the Merkle engine
(both copies of package `merkle`), the Ed25519 signing layer (package
`sign` and the duplicate `derive.go`), the append-only ledger
(package `ledger`), and the rotation-policy governance engine
(package `policy`).

Conventions of the shallow embedding:
* Go byte slices are `List Nat` with every entry `< 256`.
* Go strings are Lean `String`s; `regexp.MatchString` of the two
  patterns used by the source becomes a decidable `Bool` predicate.
* Go `(T, error)` returns become `Except E T`; functions that return
  only `error` become `Option E`-style or `Except E Unit`.
* Go `int` parameters that the source range-checks are `Int`.
* Loops that are not structurally recursive are given explicit fuel;
  the fuel a caller passes is proved sufficient.
-/

/-! ## Hex codec

Models Go `encoding/hex` (`DecodeString`, `EncodeToString`) and the
`regexp.MustCompile("^[a-f0-9]{64}$")` / `...{128}$` validators that
every package of the source compiles.  Note Go `hex.DecodeString`
accepts BOTH cases (`fromHexChar` handles `0-9`, `a-f` and `A-F`)
while the validators accept lowercase only; both behaviours are
embedded faithfully because the difference is observable (derive.go
decodes without validating). -/

/-- Go `encoding/hex.fromHexChar`: value of one hex digit, accepting
`0-9`, `a-f` and `A-F` (uppercase included, as Go does). -/
def hexCharVal (c : Char) : Option Nat :=
  if 48 ≤ c.toNat ∧ c.toNat ≤ 57 then some (c.toNat - 48)
  else if 97 ≤ c.toNat ∧ c.toNat ≤ 102 then some (c.toNat - 87)
  else if 65 ≤ c.toNat ∧ c.toNat ≤ 70 then some (c.toNat - 55)
  else none

/-- Go `encoding/hex` lowercase digit table `"0123456789abcdef"`:
the character for a value `v < 16`. -/
def hexDigitChar (v : Nat) : Char :=
  Char.ofNat (if v < 10 then v + 48 else v + 87)

/-- Go `hex.DecodeString` on a character list: two digits per byte,
error (`none`) on an odd count or a non-hex character. -/
def hexDecodeChars : List Char → Option (List Nat)
  | [] => some []
  | [_] => none
  | c1 :: c2 :: rest =>
    match hexCharVal c1, hexCharVal c2, hexDecodeChars rest with
    | some hi, some lo, some tail => some ((hi * 16 + lo) :: tail)
    | _, _, _ => none

/-- Go `hex.DecodeString`. -/
def hexDecode (s : String) : Option (List Nat) :=
  hexDecodeChars s.data

/-- Go `hex.EncodeToString`: two lowercase digits per byte. -/
def hexEncode (bs : List Nat) : String :=
  String.mk (bs.flatMap fun b => [hexDigitChar (b / 16), hexDigitChar (b % 16)])

/-- The character class `[a-f0-9]` of the validators (lowercase only). -/
def isLowerHexChar (c : Char) : Bool :=
  (48 ≤ c.toNat && c.toNat ≤ 57) || (97 ≤ c.toNat && c.toNat ≤ 102)

/-- `regexp.MatchString` for `^[a-f0-9]{n}$`: exactly `n` characters,
all in the class.  The source instantiates `n = 64` (32-byte digests,
seeds and public keys) and `n = 128` (64-byte signatures). -/
def matchesHexN (n : Nat) (s : String) : Bool :=
  s.length == n && s.data.all isLowerHexChar

/-! ## SHA-256

Faithful implementation of FIPS 180-4 SHA-256 (the semantics of Go
`crypto/sha256.Sum256`) over byte lists, with 32-bit words as `Nat`
reduced mod `2 ^ 32`. -/

namespace sha2

/-- Truncate to a 32-bit word. -/
def w32 (n : Nat) : Nat := n % 4294967296

/-- 32-bit addition. -/
def add32 (a b : Nat) : Nat := w32 (a + b)

/-- 32-bit right rotation (inputs are already reduced words). -/
def rotr (k n : Nat) : Nat := w32 ((n >>> k) ||| (n <<< (32 - k)))

/-- SHA-256 round constants. -/
def roundK : List Nat :=
  [1116352408, 1899447441, 3049323471, 3921009573, 961987163,
   1508970993, 2453635748, 2870763221, 3624381080, 310598401,
   607225278, 1426881987, 1925078388, 2162078206, 2614888103,
   3248222580, 3835390401, 4022224774, 264347078, 604807628,
   770255983, 1249150122, 1555081692, 1996064986, 2554220882,
   2821834349, 2952996808, 3210313671, 3336571891, 3584528711,
   113926993, 338241895, 666307205, 773529912, 1294757372,
   1396182291, 1695183700, 1986661051, 2177026350, 2456956037,
   2730485921, 2820302411, 3259730800, 3345764771, 3516065817,
   3600352804, 4094571909, 275423344, 430227734, 506948616,
   659060556, 883997877, 958139571, 1322822218, 1537002063,
   1747873779, 1955562222, 2024104815, 2227730452, 2361852424,
   2428436474, 2756734187, 3204031479, 3329325298]

/-- Hash state: the eight working words. -/
structure Hs where
  a : Nat
  b : Nat
  c : Nat
  d : Nat
  e : Nat
  f : Nat
  g : Nat
  h : Nat

/-- Initial hash value. -/
def initHs : Hs :=
  ⟨1779033703, 3144134277, 1013904242, 2773480762,
   1359893119, 2600822924, 528734635, 1541459225⟩

/-- Big-endian 32-bit word from four bytes of a block. -/
def beWord (block : List Nat) (i : Nat) : Nat :=
  (block.getD (4 * i) 0) <<< 24 ||| (block.getD (4 * i + 1) 0) <<< 16 |||
    (block.getD (4 * i + 2) 0) <<< 8 ||| block.getD (4 * i + 3) 0

/-- The 64-entry message schedule of one 64-byte block. -/
def schedule (block : List Nat) : List Nat :=
  (List.range 48).foldl
    (fun w t =>
      let s0 :=
        (rotr 7 (w.getD (t + 1) 0)) ^^^ (rotr 18 (w.getD (t + 1) 0)) ^^^
          ((w.getD (t + 1) 0) >>> 3)
      let s1 :=
        (rotr 17 (w.getD (t + 14) 0)) ^^^ (rotr 19 (w.getD (t + 14) 0)) ^^^
          ((w.getD (t + 14) 0) >>> 10)
      w ++ [add32 (add32 (w.getD t 0) s0) (add32 (w.getD (t + 9) 0) s1)])
    ((List.range 16).map (beWord block))

/-- One round of the compression function. -/
def round (ws : List Nat) (st : Hs) (t : Nat) : Hs :=
  let s1 := (rotr 6 st.e) ^^^ (rotr 11 st.e) ^^^ (rotr 25 st.e)
  let ch := (st.e &&& st.f) ^^^ ((st.e ^^^ 0xffffffff) &&& st.g)
  let t1 := add32 (add32 (add32 st.h s1) (add32 ch (roundK.getD t 0))) (ws.getD t 0)
  let s0 := (rotr 2 st.a) ^^^ (rotr 13 st.a) ^^^ (rotr 22 st.a)
  let mj := (st.a &&& st.b) ^^^ (st.a &&& st.c) ^^^ (st.b &&& st.c)
  let t2 := add32 s0 mj
  ⟨add32 t1 t2, st.a, st.b, st.c, add32 st.d t1, st.e, st.f, st.g⟩

/-- Compress one 64-byte block into the running state. -/
def compress (st : Hs) (block : List Nat) : Hs :=
  let ws := schedule block
  let r := (List.range 64).foldl (round ws) st
  ⟨add32 st.a r.a, add32 st.b r.b, add32 st.c r.c, add32 st.d r.d,
   add32 st.e r.e, add32 st.f r.f, add32 st.g r.g, add32 st.h r.h⟩

/-- FIPS 180-4 padding: `0x80`, zeros to 56 mod 64, bit length as a
big-endian 64-bit integer. -/
def pad (msg : List Nat) : List Nat :=
  let l := msg.length
  let zeros := (64 + 55 - l % 64) % 64
  msg ++ 0x80 :: List.replicate zeros 0 ++
    [w8 (8 * l >>> 56), w8 (8 * l >>> 48), w8 (8 * l >>> 40), w8 (8 * l >>> 32),
     w8 (8 * l >>> 24), w8 (8 * l >>> 16), w8 (8 * l >>> 8), w8 (8 * l)]
where
  w8 (n : Nat) : Nat := n % 256

/-- The four big-endian bytes of a word. -/
def wordBytes (n : Nat) : List Nat :=
  [n >>> 24 % 256, n >>> 16 % 256, n >>> 8 % 256, n % 256]

/-- SHA-256 of a byte list (semantics of Go `sha256.Sum256`). -/
def sha256 (msg : List Nat) : List Nat :=
  let padded := pad msg
  let blocks := (List.range (padded.length / 64)).map
    fun i => (padded.drop (64 * i)).take 64
  let st := blocks.foldl compress initHs
  wordBytes st.a ++ wordBytes st.b ++ wordBytes st.c ++ wordBytes st.d ++
    wordBytes st.e ++ wordBytes st.f ++ wordBytes st.g ++ wordBytes st.h

end sha2

set_option maxRecDepth 8000 in
/-- FIPS 180-4 test vector: SHA-256 of the empty message. -/
theorem sha256_vector_empty :
    hexEncode (sha2.sha256 []) =
      "e3b0c44298fc1c149afbf4c8996fb92427ae41e4649b934ca495991b7852b855" := by
  decide

set_option maxRecDepth 8000 in
/-- FIPS 180-4 test vector: SHA-256 of `abc`. -/
theorem sha256_vector_abc :
    hexEncode (sha2.sha256 [97, 98, 99]) =
      "ba7816bf8f01cfea414140de5dae2223b00361a396177a9cb410ff61f20015ad" := by
  decide

/-! ## Merkle engine

Package `merkle` exists in two copies in the repository.  `BuildRoot`,
`BuildProof` and `hashPair` are textually identical in both; the two
`VerifyProof`s differ: the first copy folds the proof by its recorded
positions with no index binding and no length rule, the second
(hardened) copy recomputes positions from the index, enforces the
odd-duplication rule and the exact proof length.  Namespace `merkle`
embeds the second copy; namespace `merkleFirst` embeds the first
copy's `VerifyProof`. -/

namespace merkle

/-- The error values of package `merkle` (`ErrEmptyLeaves`,
`ErrInvalidLeafFormat`, `ErrInvalidIndex`, `ErrInvalidProof`,
`ErrInvalidTotalLeaves`); `hexFail` stands for the wrapped
`encoding/hex` decode errors of `hashPair`. -/
inductive MerkleErr where
  | emptyLeaves
  | invalidLeafFormat
  | invalidIndex
  | invalidProof
  | invalidTotalLeaves
  | hexFail
  deriving DecidableEq, Repr

/-- `ProofNode`: one step of a Merkle proof. -/
structure ProofNode where
  hash : String
  position : String
  deriving DecidableEq, Repr

instance : Inhabited ProofNode := ⟨⟨"", ""⟩⟩

/-- `hashPair`: decode both hex hashes, concatenate the bytes
left‖right, SHA-256, re-encode lowercase. -/
def hashPair (leftHex rightHex : String) : Except MerkleErr String :=
  match hexDecode leftHex with
  | none => .error .hexFail
  | some leftBytes =>
    match hexDecode rightHex with
    | none => .error .hexFail
    | some rightBytes => .ok (hexEncode (sha2.sha256 (leftBytes ++ rightBytes)))

/-- The value `hashPair` computes when both arguments decode (the
total companion used to state proofs and concrete counterexamples). -/
def pureHash (leftHex rightHex : String) : String :=
  hexEncode (sha2.sha256 ((hexDecode leftHex).getD [] ++ (hexDecode rightHex).getD []))

/-- One pass of the level loop `for i := 0; i < len; i += 2` common to
`BuildRoot` and `BuildProof`: hash adjacent pairs; an unpaired last
node is paired with itself (`right := left`). -/
def levelUp : List String → Except MerkleErr (List String)
  | [] => .ok []
  | [x] => do
    let p ← hashPair x x
    .ok [p]
  | x :: y :: rest => do
    let p ← hashPair x y
    let tail ← levelUp rest
    .ok (p :: tail)

/-- Total companion of `levelUp`. -/
def levelUpP : List String → List String
  | [] => []
  | [x] => [pureHash x x]
  | x :: y :: rest => pureHash x y :: levelUpP rest

/-- The outer `for len(currentLevel) > 1` loop of `BuildRoot`,
with explicit fuel (each iteration at least halves a level of length
`≥ 2`, so fuel `= len(leaves)` always suffices; see
`buildLevels_eq`). -/
def buildLevels : Nat → List String → Except MerkleErr String
  | _, [] => .error .emptyLeaves
  | _, [x] => .ok x
  | 0, _ :: _ :: _ => .error .emptyLeaves
  | fuel + 1, x :: y :: rest => do
    let next ← levelUp (x :: y :: rest)
    buildLevels fuel next

/-- `BuildRoot` (identical in both copies of the package). -/
def BuildRoot (leaves : List String) : Except MerkleErr String :=
  if leaves.isEmpty then .error .emptyLeaves
  else if !(leaves.all (matchesHexN 64 ·)) then .error .invalidLeafFormat
  else if leaves.length == 1 then .ok (leaves.headD "")
  else buildLevels leaves.length leaves

/-- The proof node `BuildProof` records at one level for current index
`ci`: even `ci` records the right sibling (the node itself when the
pair is completed by duplication), odd `ci` records the left sibling. -/
def proofStep (level : List String) (ci : Nat) : ProofNode :=
  if ci % 2 == 0 then
    ⟨if ci + 1 < level.length then level.getD (ci + 1) "" else level.getD ci "",
     "right"⟩
  else ⟨level.getD (ci - 1) "", "left"⟩

/-- The level loop of `BuildProof` (fuel as in `buildLevels`):
record the sibling of the current index, build the next level,
halve the index. -/
def buildProofLoop :
    Nat → List String → Nat → List ProofNode →
      Except MerkleErr (List ProofNode × String)
  | _, [], _, _ => .error .emptyLeaves
  | _, [x], _, acc => .ok (acc, x)
  | 0, _ :: _ :: _, _, _ => .error .emptyLeaves
  | fuel + 1, x :: y :: rest, ci, acc => do
    let next ← levelUp (x :: y :: rest)
    buildProofLoop fuel next (ci / 2) (acc ++ [proofStep (x :: y :: rest) ci])

/-- `BuildProof` (identical in both copies of the package). -/
def BuildProof (leaves : List String) (index : Int) :
    Except MerkleErr (List ProofNode × String) :=
  if leaves.isEmpty then .error .emptyLeaves
  else if index < 0 || index ≥ leaves.length then .error .invalidIndex
  else if !(leaves.all (matchesHexN 64 ·)) then .error .invalidLeafFormat
  else if leaves.length == 1 then .ok ([], leaves.headD "")
  else buildProofLoop leaves.length leaves index.toNat []

/-- The tree-height loop of the second `VerifyProof`
(`for n := totalLeaves; n > 1; n = (n+1)/2 { expectedLen++ }`),
with fuel. -/
def heightFuel : Nat → Nat → Nat
  | 0, _ => 0
  | fuel + 1, n => if n > 1 then heightFuel fuel ((n + 1) / 2) + 1 else 0

/-- Tree height over `n` leaves: iterate `n ← ⌈n/2⌉` to 1 (fuel `n`
suffices, `heightFuel_congr`). -/
def height (n : Nat) : Nat := heightFuel n n

/-- The per-node validation loop shared by both `VerifyProof`s: each
proof hash must be 64 lowercase hex, each position `left` or `right`
(hash checked first, nodes in order). -/
def checkNodes : List ProofNode → Except MerkleErr Unit
  | [] => .ok ()
  | node :: rest =>
    if !matchesHexN 64 node.hash then .error .invalidLeafFormat
    else if node.position ≠ "left" ∧ node.position ≠ "right" then .error .invalidProof
    else checkNodes rest

/-- The reconstruction loop of the second (strict) `VerifyProof`:
recompute the expected position from the current index parity, reject
a disagreeing recorded position; when the sibling index is out of
range enforce the odd-duplication rule (recorded hash = current
hash); then hash according to the position and halve index and
level width. -/
def verifyLoop :
    List ProofNode → String → Nat → Nat → Except MerkleErr String
  | [], current, _, _ => .ok current
  | node :: rest, current, ci, cn =>
    if node.position ≠ (if ci % 2 == 1 then "left" else "right") then
      .error .invalidProof
    else if (if ci % 2 == 1 then ci - 1 else ci + 1) ≥ cn ∧ node.hash ≠ current then
      .error .invalidProof
    else do
      let parent ←
        if node.position == "right" then hashPair current node.hash
        else hashPair node.hash current
      verifyLoop rest parent (ci / 2) ((cn + 1) / 2)

/-- `VerifyProof`, second copy (strict index/length binding). -/
def VerifyProof (leaf : String) (index totalLeaves : Int)
    (proof : List ProofNode) (expectedRoot : String) : Except MerkleErr Bool :=
  if !matchesHexN 64 leaf then .error .invalidLeafFormat
  else if !matchesHexN 64 expectedRoot then .error .invalidLeafFormat
  else if totalLeaves ≤ 0 then .error .invalidTotalLeaves
  else if index < 0 || index ≥ totalLeaves then .error .invalidIndex
  else if totalLeaves == 1 then
    if proof.length ≠ 0 then .error .invalidProof
    else .ok (leaf == expectedRoot)
  else if proof.length ≠ height totalLeaves.toNat then .error .invalidProof
  else
    match checkNodes proof with
    | .error e => .error e
    | .ok _ =>
      match verifyLoop proof leaf index.toNat totalLeaves.toNat with
      | .error e => .error e
      | .ok current => .ok (current == expectedRoot)

end merkle

namespace merkleFirst

open merkle in
/-- The reconstruction loop of the first (lenient) `VerifyProof`:
concatenate according to the recorded position and hash — no index
binding, no odd-duplication rule. -/
def foldLoop : List ProofNode → String → Except MerkleErr String
  | [], current => .ok current
  | node :: rest, current => do
    let parent ←
      if node.position == "right" then hashPair current node.hash
      else hashPair node.hash current
    foldLoop rest parent

open merkle in
/-- `VerifyProof`, first copy (lenient): same input validation, but the
only shape rule for `totalLeaves > 1` is that the proof is non-empty. -/
def VerifyProof (leaf : String) (index totalLeaves : Int)
    (proof : List ProofNode) (expectedRoot : String) : Except MerkleErr Bool :=
  if !matchesHexN 64 leaf then .error .invalidLeafFormat
  else if !matchesHexN 64 expectedRoot then .error .invalidLeafFormat
  else if totalLeaves ≤ 0 then .error .invalidTotalLeaves
  else if index < 0 || index ≥ totalLeaves then .error .invalidIndex
  else if totalLeaves == 1 then
    if proof.length ≠ 0 then .error .invalidProof
    else .ok (leaf == expectedRoot)
  else if proof.length == 0 then .error .invalidProof
  else
    match checkNodes proof with
    | .error e => .error e
    | .ok _ =>
      match foldLoop proof leaf with
      | .error e => .error e
      | .ok current => .ok (current == expectedRoot)

end merkleFirst

/-! ## Ed25519 (symbolic model of Go `crypto/ed25519`)

The curve arithmetic lives in the Go standard library, outside this
repository, so it is modelled symbolically at the documented interface
of `crypto/ed25519`, preserving the representation facts the source
relies on: `NewKeyFromSeed` returns the 64-byte private key whose
first 32 bytes are the seed and whose last 32 bytes are the public
key; `priv.Public()` is those last 32 bytes; `Sign` is deterministic
in (private key, message); `Verify pub msg sig` accepts exactly the
signature `Sign` produces under that key for that message.  A
signature is modelled as the seed followed by the message (64 bytes
for a 32-byte message), which realises determinism, the sign/verify
round trip, and the binding of a signature to its key and message —
the contract the specification states for the primitive. -/

namespace ed25519

/-- Symbolic public key of a 32-byte seed. -/
def pubOfSeed (seed : List Nat) : List Nat := seed

/-- `ed25519.NewKeyFromSeed`: the 64-byte private key, seed followed
by public key (the documented Go representation). -/
def NewKeyFromSeed (seed : List Nat) : List Nat := seed ++ pubOfSeed seed

/-- `priv.Public()`: the last 32 bytes of the private key. -/
def Public (priv : List Nat) : List Nat := priv.drop 32

/-- `ed25519.Sign` (symbolic): deterministic in the private key's seed
half and the message. -/
def Sign (priv : List Nat) (msg : List Nat) : List Nat := priv.take 32 ++ msg

/-- `ed25519.Verify` (symbolic): accepts exactly the signature `Sign`
produces under the key with this public half for this message. -/
def Verify (pub : List Nat) (msg : List Nat) (sig : List Nat) : Bool :=
  sig == pub ++ msg

end ed25519

/-! ## Package `sign` and the duplicate `derive.go` -/

namespace sign

/-- The error values of package `sign` (`ErrInvalidHex`,
`ErrInvalidLength`, `ErrVerificationFailed`) plus the wrapped
`encoding/hex` decode errors. -/
inductive SignErr where
  | invalidHex
  | invalidLength
  | verificationFailed
  | hexFail
  deriving DecidableEq, Repr

/-- `ValidateHashHex`: strict lowercase hex-64. -/
def ValidateHashHex (hashHex : String) : Except SignErr Unit :=
  if !matchesHexN 64 hashHex then .error .invalidHex else .ok ()

/-- `ValidateSeedHex`: strict lowercase hex-64. -/
def ValidateSeedHex (seedHex : String) : Except SignErr Unit :=
  if !matchesHexN 64 seedHex then .error .invalidHex else .ok ()

/-- `ValidatePubKeyHex`: strict lowercase hex-64. -/
def ValidatePubKeyHex (pubHex : String) : Except SignErr Unit :=
  if !matchesHexN 64 pubHex then .error .invalidHex else .ok ()

/-- `ValidateSignatureHex`: strict lowercase hex-128. -/
def ValidateSignatureHex (sigHex : String) : Except SignErr Unit :=
  if !matchesHexN 128 sigHex then .error .invalidHex else .ok ()

/-- Package `sign`'s `DeriveKeyPairFromSeedHex`: validates the seed,
decodes, derives, returns `(pubHex, privHex)` — public key first. -/
def DeriveKeyPairFromSeedHex (seedHex : String) :
    Except SignErr (String × String) :=
  if !matchesHexN 64 seedHex then .error .invalidHex
  else
    match hexDecode seedHex with
    | none => .error .hexFail
    | some seed =>
      if seed.length ≠ 32 then .error .invalidLength
      else
        let priv := ed25519.NewKeyFromSeed seed
        .ok (hexEncode (ed25519.Public priv), hexEncode priv)

/-- `SignHashHex`: validate both hex inputs, decode the digest to its
raw 32 bytes (the message that is signed), decode the seed, derive,
sign, return `(sigHex, pubHex)`. -/
def SignHashHex (hashHex seedHex : String) :
    Except SignErr (String × String) :=
  if !matchesHexN 64 hashHex then .error .invalidHex
  else if !matchesHexN 64 seedHex then .error .invalidHex
  else
    match hexDecode hashHex with
    | none => .error .hexFail
    | some msg =>
      if msg.length ≠ 32 then .error .invalidLength
      else
        match hexDecode seedHex with
        | none => .error .hexFail
        | some seed =>
          if seed.length ≠ 32 then .error .invalidLength
          else
            let priv := ed25519.NewKeyFromSeed seed
            let pub := ed25519.Public priv
            .ok (hexEncode (ed25519.Sign priv msg), hexEncode pub)

/-- `VerifyHashHex`: validate all three hex inputs, decode, verify;
a cryptographic mismatch is the distinguished `ErrVerificationFailed`. -/
def VerifyHashHex (hashHex sigHex pubHex : String) : Except SignErr Bool :=
  if !matchesHexN 64 hashHex then .error .invalidHex
  else if !matchesHexN 128 sigHex then .error .invalidHex
  else if !matchesHexN 64 pubHex then .error .invalidHex
  else
    match hexDecode hashHex with
    | none => .error .hexFail
    | some msg =>
      if msg.length ≠ 32 then .error .invalidLength
      else
        match hexDecode sigHex with
        | none => .error .hexFail
        | some sig =>
          if sig.length ≠ 64 then .error .invalidLength
          else
            match hexDecode pubHex with
            | none => .error .hexFail
            | some pub =>
              if pub.length ≠ 32 then .error .invalidLength
              else if ed25519.Verify pub msg sig then .ok true
              else .error .verificationFailed

end sign

namespace derive

/-- The error cases of `derive.go`'s copy: a hex decode failure
(`invalid seed hex`) or a wrong byte count (`seed must be 32 bytes`). -/
inductive DeriveErr where
  | invalidSeedHex
  | badSeedLength
  deriving DecidableEq, Repr

/-- `derive.go`'s `DeriveKeyPairFromSeedHex`: NO lowercase-hex
validation — it decodes directly with `hex.DecodeString` (which also
accepts uppercase), checks the byte count, and returns
`(privHex, pubHex)` — private key first, the reverse of the package
`sign` copy. -/
def DeriveKeyPairFromSeedHex (seedHex : String) :
    Except DeriveErr (String × String) :=
  match hexDecode seedHex with
  | none => .error .invalidSeedHex
  | some seed =>
    if seed.length ≠ 32 then .error .badSeedLength
    else
      let priv := ed25519.NewKeyFromSeed seed
      .ok (hexEncode priv, hexEncode (ed25519.Public priv))

end derive

/-! ## Package `ledger`

The file at the ledger path is modelled as `Option (List Entry)`:
`none` is an absent file, `some es` a file holding the JSON lines of
the entries `es` in order (one line per entry — `appendEntry` writes
exactly one marshalled line plus LF, and records are never mutated,
so the entry list determines the bytes).  Timestamps are abstract
instants (`Nat`): the source stamps `time.Now()` and round-trips
through RFC3339Nano (`Format`/`Parse`), `time.Time{}` is `0`,
`ts.After(t)` is `ts > t`.  `time.Now()` becomes an explicit `now`
parameter.  I/O failure and corrupt lines cannot arise on these
well-formed states, so the `LedgerIO`/`LedgerCorrupt` paths of the
source are unreachable in the model (the claims checked here only
concern states the API itself produced). -/

namespace ledger

/-- The error values of package `ledger`. -/
inductive LedgerErr where
  | ioFailure
  | corrupt
  | noRegistrations
  | invalidHex
  | invalidTimestamp
  deriving DecidableEq, Repr

/-- `RegisterEntry`: one registration line. -/
structure RegisterEntry where
  type : String
  canon : String
  timestamp : Nat
  objectHashHex : String
  canonicalJSONB64 : Option (List Nat)
  deriving DecidableEq, Repr

/-- `Manifest`: the signed seal payload. -/
structure Manifest where
  merkleRoot : String
  signature : String
  publicKey : String
  timestamp : Nat
  deriving DecidableEq, Repr

/-- `SealEntry`: one seal line. -/
structure SealEntry where
  type : String
  manifest : Manifest
  deriving DecidableEq, Repr

/-- A ledger line, discriminated by its `type` field. -/
inductive Entry where
  | register (r : RegisterEntry)
  | seal (s : SealEntry)
  deriving DecidableEq, Repr

/-- The ledger file: absent, or the listed entries in file order. -/
abbrev LedgerFile := Option (List Entry)

/-- `appendEntry`: create-if-absent, append one line. -/
def appendEntry (e : Entry) (st : LedgerFile) : LedgerFile :=
  some (st.getD [] ++ [e])

/-- The register line `AppendRegister` writes: kind and canon tags,
the stamp, the hash, and the optional base64-wrapped canonical JSON
(the bytes are kept; base64 is a bijection immaterial here). -/
def registerEntry (now : Nat) (objectHashHex : String)
    (canonicalJSON : List Nat) : RegisterEntry :=
  { type := "register", canon := "v1.0", timestamp := now
    objectHashHex := objectHashHex
    canonicalJSONB64 :=
      if canonicalJSON.length > 0 then some canonicalJSON else none }

/-- `AppendRegister`: validate the object hash, stamp the current
time, append.  Returns the result paired with the resulting file. -/
def AppendRegister (now : Nat) (objectHashHex : String)
    (canonicalJSON : List Nat) (st : LedgerFile) :
    Except LedgerErr Unit × LedgerFile :=
  if !matchesHexN 64 objectHashHex then (.error .invalidHex, st)
  else (.ok (), appendEntry (.register (registerEntry now objectHashHex canonicalJSON)) st)

/-- `ListRegistersSince`: missing file is empty; otherwise collect, in
file order, the register entries with `timestamp > lastSealTS`. -/
def ListRegistersSince (lastSealTS : Nat) (st : LedgerFile) :
    Except LedgerErr (List RegisterEntry) :=
  match st with
  | none => .ok []
  | some es =>
    .ok (es.filterMap fun e =>
      match e with
      | .register r => if r.timestamp > lastSealTS then some r else none
      | .seal _ => none)

/-- `getLastSealTimestamp`: the manifest timestamp of the last seal
line, zero time when there is none (or no file).  (In Go the function
also returns an error, raised only on I/O failure or a corrupt line;
neither is representable on the model's well-formed states.) -/
def getLastSealTimestamp (st : LedgerFile) : Nat :=
  match st with
  | none => 0
  | some es =>
    es.foldl
      (fun acc e => match e with | .seal s => s.manifest.timestamp | _ => acc) 0

/-- `AppendSeal`: validate the manifest's hex fields (its timestamp,
an abstract instant here, always parses), find the last seal's
timestamp, list the registers since; none ⇒ `ErrNoRegistrations`
with the file untouched; otherwise append the seal line. -/
def AppendSeal (m : Manifest) (st : LedgerFile) :
    Except LedgerErr Unit × LedgerFile :=
  if !matchesHexN 64 m.merkleRoot then (.error .invalidHex, st)
  else if !matchesHexN 128 m.signature then (.error .invalidHex, st)
  else if !matchesHexN 64 m.publicKey then (.error .invalidHex, st)
  else
    match ListRegistersSince (getLastSealTimestamp st) st with
    | .error e => (.error e, st)
    | .ok registers =>
      if registers.isEmpty then (.error .noRegistrations, st)
      else (.ok (), appendEntry (.seal ⟨"seal", m⟩) st)

/-- A sequence of `AppendRegister` calls (timestamp, object hash,
canonical JSON bytes), applied in order; a failed call leaves the
file as it was. -/
def runAppends : List (Nat × String × List Nat) → LedgerFile → LedgerFile
  | [], st => st
  | c :: rest, st => runAppends rest (AppendRegister c.1 c.2.1 c.2.2 st).2

end ledger

/-! ## Package `policy` -/

namespace policy

/-- Modelled from the spec: the `RotationPolicy` descriptor (§3 of the
specification); the Go file declaring the struct is not among the
sources — only `ValidateInvariants`, `LoadPolicy` and the tests use
it, and the field set below is exactly the one they dereference. -/
structure IssuerInfo where
  name : String
  id : String
  deriving DecidableEq, Repr

/-- Modelled from the spec: `constraints` block of `RotationPolicy`. -/
structure Constraints where
  hashAlg : String
  allowedHashAlgs : List String
  domainSeparator : String
  minDepth : Int
  maxDepth : Int
  deriving DecidableEq, Repr

/-- Modelled from the spec: `epochs` block of `RotationPolicy`. -/
structure Epochs where
  intervalSeconds : Int
  idFormat : String
  deriving DecidableEq, Repr

/-- Modelled from the spec: `cutover` block of `RotationPolicy`. -/
structure Cutover where
  requirePrevAnchor : Bool
  strictMonotonicEpoch : Bool
  deriving DecidableEq, Repr

/-- Modelled from the spec: the rotation-policy descriptor. -/
structure RotationPolicy where
  policyVersion : String
  issuer : IssuerInfo
  constraints : Constraints
  epochs : Epochs
  cutover : Cutover
  deriving DecidableEq, Repr

/-- `ValidateInvariants`: the frozen-invariant gate, checks in source
order; `none` is the Go `nil` return, `some msg` an `AUDIT_FAIL`
error (message bodies abbreviated to fixed text). -/
def ValidateInvariants (p : RotationPolicy) : Option String :=
  if p.constraints.hashAlg ≠ "sha256" then
    some ("AUDIT_FAIL: " ++ "hash_alg is not supported (required: sha256)")
  else if !(p.constraints.allowedHashAlgs.contains "sha256") then
    some ("AUDIT_FAIL: " ++ "sha256 must be present in allowed_hash_algs")
  else if p.constraints.domainSeparator ≠ "RVA_NODE:v1" then
    some ("AUDIT_FAIL: " ++ "domain_separator violates protocol version (required: RVA_NODE:v1)")
  else if p.constraints.minDepth < 1 ∨ p.constraints.maxDepth > 64 then
    some ("AUDIT_FAIL: " ++ "invalid Merkle depth boundaries (min:1, max:64)")
  else if p.epochs.intervalSeconds < 86400 then
    some ("AUDIT_FAIL: " ++ "rotation interval is below production safety limit (86400s)")
  else if p.epochs.idFormat ≠ "numeric_ascending" then
    some ("AUDIT_FAIL: " ++ "epoch_id_format is not recognized")
  else if !p.cutover.requirePrevAnchor ∨ !p.cutover.strictMonotonicEpoch then
    some ("AUDIT_FAIL: " ++ "cutover rules must enforce previous_anchor and strict_monotonicity")
  else none

end policy

/-! ## Properties of the hex codec -/

theorem charOfNat_toNat {n : Nat} (h : n < 55296) : (Char.ofNat n).toNat = n := by
  have hv : Nat.isValidChar n := Or.inl (by omega)
  simp [Char.ofNat, Char.ofNatAux, hv, Char.toNat, UInt32.toNat, BitVec.toNat_ofNatLt]

theorem char_toNat_inj {c d : Char} (h : c.toNat = d.toNat) : c = d :=
  Char.ext (UInt32.ext h)

theorem char_ofNat_toNat_eq (c : Char) (h : c.toNat < 55296) :
    Char.ofNat c.toNat = c :=
  char_toNat_inj (charOfNat_toNat h)

/-- A hex digit value is below 16. -/
theorem hexCharVal_lt {c : Char} {v : Nat} (h : hexCharVal c = some v) : v < 16 := by
  unfold hexCharVal at h
  split_ifs at h with h1 h2 h3 <;> (injection h with h; omega)

/-- A lowercase hex character decodes, to a value below 16, and
re-encodes to itself. -/
theorem lowerHex_val {c : Char} (h : isLowerHexChar c = true) :
    ∃ v, hexCharVal c = some v ∧ v < 16 ∧ hexDigitChar v = c := by
  unfold isLowerHexChar at h
  rcases Bool.or_eq_true_iff.mp h with h1 | h1
  · have hlo : 48 ≤ c.toNat := by
      have := Bool.and_eq_true_iff.mp h1
      exact Nat.le_of_ble_eq_true (by simpa using this.1)
    have hhi : c.toNat ≤ 57 := by
      have := Bool.and_eq_true_iff.mp h1
      exact Nat.le_of_ble_eq_true (by simpa using this.2)
    refine ⟨c.toNat - 48, ?_, by omega, ?_⟩
    · unfold hexCharVal
      rw [if_pos ⟨hlo, hhi⟩]
    · unfold hexDigitChar
      rw [if_pos (by omega), show c.toNat - 48 + 48 = c.toNat by omega]
      exact char_ofNat_toNat_eq c (by omega)
  · have hlo : 97 ≤ c.toNat := by
      have := Bool.and_eq_true_iff.mp h1
      exact Nat.le_of_ble_eq_true (by simpa using this.1)
    have hhi : c.toNat ≤ 102 := by
      have := Bool.and_eq_true_iff.mp h1
      exact Nat.le_of_ble_eq_true (by simpa using this.2)
    refine ⟨c.toNat - 87, ?_, by omega, ?_⟩
    · unfold hexCharVal
      rw [if_neg (by omega), if_pos ⟨hlo, hhi⟩]
    · unfold hexDigitChar
      rw [if_neg (by omega), show c.toNat - 87 + 87 = c.toNat by omega]
      exact char_ofNat_toNat_eq c (by omega)

/-- Encoding a value below 16 yields a lowercase hex character. -/
theorem hexDigitChar_isLower : ∀ v < 16, isLowerHexChar (hexDigitChar v) = true := by
  decide

/-- Decoding inverts encoding on digit values. -/
theorem hexCharVal_hexDigitChar : ∀ v < 16, hexCharVal (hexDigitChar v) = some v := by
  decide

/-- Decoding the encoding of a byte list (all entries below 256)
recovers the list. -/
theorem hexDecodeChars_encode :
    ∀ bs : List Nat, (∀ b ∈ bs, b < 256) →
      hexDecodeChars
        (bs.flatMap fun b => [hexDigitChar (b / 16), hexDigitChar (b % 16)]) =
        some bs
  | [], _ => rfl
  | b :: t, h => by
    have hb : b < 256 := h b (List.mem_cons_self b t)
    have iht := hexDecodeChars_encode t fun x hx => h x (List.mem_cons_of_mem b hx)
    show hexDecodeChars (hexDigitChar (b / 16) :: hexDigitChar (b % 16) ::
      t.flatMap fun x => [hexDigitChar (x / 16), hexDigitChar (x % 16)]) =
      some (b :: t)
    simp only [hexDecodeChars, hexCharVal_hexDigitChar (b / 16) (by omega),
      hexCharVal_hexDigitChar (b % 16) (by omega), iht,
      show b / 16 * 16 + b % 16 = b by omega]

/-- `hexDecode ∘ hexEncode = some` on byte lists. -/
theorem hexDecode_hexEncode (bs : List Nat) (h : ∀ b ∈ bs, b < 256) :
    hexDecode (hexEncode bs) = some bs :=
  hexDecodeChars_encode bs h

/-- Length of the encoding's character list. -/
theorem hexEncode_chars_length :
    ∀ bs : List Nat,
      (bs.flatMap fun b => [hexDigitChar (b / 16), hexDigitChar (b % 16)]).length =
        2 * bs.length
  | [] => rfl
  | b :: t => by
    show (hexDigitChar (b / 16) :: hexDigitChar (b % 16) ::
      t.flatMap fun x => [hexDigitChar (x / 16), hexDigitChar (x % 16)]).length = _
    rw [List.length_cons, List.length_cons, hexEncode_chars_length t,
      List.length_cons]
    omega

/-- The encoding of a byte list matches `^[a-f0-9]{2n}$`. -/
theorem matchesHexN_hexEncode (bs : List Nat) (h : ∀ b ∈ bs, b < 256) :
    matchesHexN (2 * bs.length) (hexEncode bs) = true := by
  unfold matchesHexN hexEncode
  refine Bool.and_eq_true_iff.mpr ⟨?_, ?_⟩
  · rw [beq_iff_eq]
    show (bs.flatMap fun b => [hexDigitChar (b / 16), hexDigitChar (b % 16)]).length =
      2 * bs.length
    exact hexEncode_chars_length bs
  · rw [List.all_eq_true]
    intro c hc
    rw [show (String.mk (bs.flatMap fun b =>
        [hexDigitChar (b / 16), hexDigitChar (b % 16)])).data =
        bs.flatMap fun b => [hexDigitChar (b / 16), hexDigitChar (b % 16)] from rfl,
      List.mem_flatMap] at hc
    obtain ⟨b, hb, hcb⟩ := hc
    have hb256 := h b hb
    simp only [List.mem_cons, List.not_mem_nil, or_false] at hcb
    rcases hcb with h1 | h1
    · exact h1 ▸ hexDigitChar_isLower (b / 16) (by omega)
    · exact h1 ▸ hexDigitChar_isLower (b % 16) (by omega)

/-- Decoding a list of lowercase hex characters of even length
succeeds; the bytes are below 256, half as many, and re-encode to the
very characters. -/
theorem hexDecodeChars_ok :
    ∀ l : List Char, l.all isLowerHexChar = true → l.length % 2 = 0 →
      ∃ bs, hexDecodeChars l = some bs ∧ bs.length = l.length / 2 ∧
        (∀ b ∈ bs, b < 256) ∧
        (bs.flatMap fun b => [hexDigitChar (b / 16), hexDigitChar (b % 16)]) = l
  | [], _, _ => ⟨[], rfl, rfl, by simp, rfl⟩
  | [c], _, he => by simp at he
  | c1 :: c2 :: rest, h, he => by
    simp only [List.all_cons, Bool.and_eq_true] at h
    obtain ⟨hc1, hc2, hrest⟩ := h
    obtain ⟨hi, hv1, hlt1, hd1⟩ := lowerHex_val hc1
    obtain ⟨lo, hv2, hlt2, hd2⟩ := lowerHex_val hc2
    have he2 : rest.length % 2 = 0 := by
      simp only [List.length_cons] at he; omega
    obtain ⟨bs, hbs, hlen, hbnd, henc⟩ := hexDecodeChars_ok rest hrest he2
    refine ⟨(hi * 16 + lo) :: bs, ?_, ?_, ?_, ?_⟩
    · simp only [hexDecodeChars, hv1, hv2, hbs]
    · simp only [List.length_cons, hlen]; omega
    · intro b hb
      rcases List.mem_cons.mp hb with h1 | h1
      · omega
      · exact hbnd b h1
    · simp only [List.flatMap_cons, henc,
        show (hi * 16 + lo) / 16 = hi by omega,
        show (hi * 16 + lo) % 16 = lo by omega, hd1, hd2]
      rfl

/-- Decoding a string that matches `^[a-f0-9]{2n}$` yields `n` bytes
below 256 whose re-encoding is the original string. -/
theorem hexDecode_ok {n : Nat} (s : String) (h : matchesHexN (2 * n) s = true) :
    ∃ bs, hexDecode s = some bs ∧ bs.length = n ∧ (∀ b ∈ bs, b < 256) ∧
      hexEncode bs = s := by
  unfold matchesHexN at h
  obtain ⟨hlen, hall⟩ := Bool.and_eq_true_iff.mp h
  have hlen2 : s.data.length = 2 * n := beq_iff_eq.mp hlen
  obtain ⟨bs, hbs, hbl, hbnd, henc⟩ :=
    hexDecodeChars_ok s.data hall (by omega)
  refine ⟨bs, hbs, by omega, hbnd, ?_⟩
  unfold hexEncode
  rw [henc]

/-- Two distinct strings matching `^[a-f0-9]{2n}$` decode to distinct
byte lists. -/
theorem hexDecode_inj {n : Nat} {s t : String}
    (hs : matchesHexN (2 * n) s = true) (ht : matchesHexN (2 * n) t = true)
    (hne : s ≠ t) : hexDecode s ≠ hexDecode t := by
  obtain ⟨bs, hbs, _, _, hse⟩ := hexDecode_ok s hs
  obtain ⟨bt, hbt, _, _, hte⟩ := hexDecode_ok t ht
  rw [hbs, hbt]
  intro hcontra
  exact hne (hse ▸ hte ▸ congrArg hexEncode (Option.some_injective _ hcontra))

/-! ## Properties of SHA-256 output -/

theorem wordBytes_length (n : Nat) : (sha2.wordBytes n).length = 4 := rfl

theorem sha256_length (m : List Nat) : (sha2.sha256 m).length = 32 := by
  unfold sha2.sha256
  simp [sha2.wordBytes]

theorem wordBytes_lt (n : Nat) : ∀ b ∈ sha2.wordBytes n, b < 256 := by
  intro b hb
  simp only [sha2.wordBytes, List.mem_cons, List.not_mem_nil, or_false] at hb
  rcases hb with h | h | h | h <;> subst h <;> exact Nat.mod_lt _ (by norm_num)

theorem sha256_lt (m : List Nat) : ∀ b ∈ sha2.sha256 m, b < 256 := by
  intro b hb
  unfold sha2.sha256 at hb
  simp only [List.mem_append] at hb
  rcases hb with ((((((h | h) | h) | h) | h) | h) | h) | h <;>
    exact wordBytes_lt _ b h

/-! ## Properties of the Merkle engine -/

namespace merkle

/-- A `pureHash` is always a valid hash (64 lowercase hex). -/
theorem pureHash_valid (l r : String) :
    matchesHexN 64 (pureHash l r) = true := by
  unfold pureHash
  have h := matchesHexN_hexEncode
    (sha2.sha256 ((hexDecode l).getD [] ++ (hexDecode r).getD []))
    (sha256_lt _)
  rwa [sha256_length] at h

/-- `hashPair` on valid hashes succeeds with `pureHash`. -/
theorem hashPair_eq {l r : String}
    (hl : matchesHexN 64 l = true) (hr : matchesHexN 64 r = true) :
    hashPair l r = .ok (pureHash l r) := by
  obtain ⟨bl, hbl, -, -, -⟩ := hexDecode_ok (n := 32) l hl
  obtain ⟨br, hbr, -, -, -⟩ := hexDecode_ok (n := 32) r hr
  unfold hashPair pureHash
  rw [hbl, hbr]
  rfl

/-- `levelUp` on a valid level succeeds with `levelUpP`. -/
theorem levelUp_eq :
    ∀ l : List String, (∀ s ∈ l, matchesHexN 64 s = true) →
      levelUp l = .ok (levelUpP l)
  | [], _ => rfl
  | [x], h => by
    have hx := h x (by simp)
    simp only [levelUp, levelUpP, hashPair_eq hx hx]
    rfl
  | x :: y :: rest, h => by
    have hx := h x (by simp)
    have hy := h y (by simp)
    have iht := levelUp_eq rest fun s hs => h s (by simp [hs])
    simp only [levelUp, levelUpP, hashPair_eq hx hy, iht]
    rfl

/-- `levelUpP` preserves validity. -/
theorem levelUpP_valid :
    ∀ l : List String, (∀ s ∈ l, matchesHexN 64 s = true) →
      ∀ s ∈ levelUpP l, matchesHexN 64 s = true
  | [], _ => by simp [levelUpP]
  | [x], _ => by
    simp [levelUpP, pureHash_valid x x]
  | x :: y :: rest, h => by
    have iht := levelUpP_valid rest fun s hs => h s (by simp [hs])
    simp only [levelUpP, List.mem_cons]
    rintro s (rfl | hs)
    · exact pureHash_valid x y
    · exact iht s hs

/-- Each level halves the node count, rounding up. -/
theorem levelUpP_length :
    ∀ l : List String, (levelUpP l).length = (l.length + 1) / 2
  | [] => rfl
  | [_] => by simp [levelUpP]
  | _ :: _ :: rest => by
    simp only [levelUpP, List.length_cons, levelUpP_length rest]
    omega

/-- Entry `j` of the next level is the hash of entries `2j` and
`2j + 1` of the current one (the last entry doubled when `2j + 1` is
out of range). -/
theorem levelUpP_getD :
    ∀ (l : List String) (j : Nat), 2 * j < l.length →
      (levelUpP l).getD j "" =
        pureHash (l.getD (2 * j) "")
          (if 2 * j + 1 < l.length then l.getD (2 * j + 1) "" else l.getD (2 * j) "")
  | [], j, h => by simp at h
  | [x], j, h => by
    have hj : j = 0 := by simp at h; omega
    subst hj
    simp [levelUpP]
  | x :: y :: rest, 0, _ => by
    simp [levelUpP]
  | x :: y :: rest, j + 1, h => by
    have h2 : 2 * j < rest.length := by
      simp only [List.length_cons] at h; omega
    have iht := levelUpP_getD rest j h2
    show (levelUpP rest).getD j "" = _
    rw [iht]
    have e1 : (x :: y :: rest).getD (2 * (j + 1)) "" = rest.getD (2 * j) "" := by
      show (x :: y :: rest).getD (2 * j + 2) "" = rest.getD (2 * j) ""
      simp [List.getD_cons_succ]
    have e2 : (x :: y :: rest).getD (2 * (j + 1) + 1) "" = rest.getD (2 * j + 1) "" := by
      show (x :: y :: rest).getD (2 * j + 3) "" = rest.getD (2 * j + 1) ""
      simp [List.getD_cons_succ]
    rw [e1, e2]
    by_cases hc : 2 * j + 1 < rest.length
    · rw [if_pos hc, if_pos (show 2 * (j + 1) + 1 < (x :: y :: rest).length by
        simp only [List.length_cons]; omega)]
    · rw [if_neg hc, if_neg (show ¬ 2 * (j + 1) + 1 < (x :: y :: rest).length by
        simp only [List.length_cons]; omega)]

/-- On zero or one node the height loop yields zero at any fuel. -/
theorem heightFuel_of_le_one : ∀ (fuel n : Nat), n ≤ 1 → heightFuel fuel n = 0
  | 0, _, _ => rfl
  | _ + 1, n, h => by
    show (if n > 1 then _ + 1 else 0) = 0
    rw [if_neg (by omega)]

/-- The height loop is fuel-invariant once the fuel reaches `n`. -/
theorem heightFuel_congr :
    ∀ n f g : Nat, n ≤ f → n ≤ g → heightFuel f n = heightFuel g n := by
  intro n
  induction n using Nat.strong_induction_on with
  | _ n ih =>
    intro f g hf hg
    rcases Nat.lt_or_ge n 2 with h2 | h2
    · rw [heightFuel_of_le_one f n (by omega), heightFuel_of_le_one g n (by omega)]
    · obtain ⟨f2, rfl⟩ : ∃ f2, f = f2 + 1 := ⟨f - 1, by omega⟩
      obtain ⟨g2, rfl⟩ : ∃ g2, g = g2 + 1 := ⟨g - 1, by omega⟩
      show (if n > 1 then heightFuel f2 ((n + 1) / 2) + 1 else 0) =
        (if n > 1 then heightFuel g2 ((n + 1) / 2) + 1 else 0)
      rw [if_pos (by omega), if_pos (by omega),
        ih ((n + 1) / 2) (by omega) f2 g2 (by omega) (by omega)]

/-- Unfolding rule for the tree height at `n ≥ 2`. -/
theorem height_succ {n : Nat} (h : 2 ≤ n) : height n = height ((n + 1) / 2) + 1 := by
  unfold height
  obtain ⟨m, rfl⟩ : ∃ m, n = m + 1 := ⟨n - 1, by omega⟩
  show (if m + 1 > 1 then heightFuel m ((m + 1 + 1) / 2) + 1 else 0) = _
  rw [if_pos (by omega),
    heightFuel_congr ((m + 1 + 1) / 2) m ((m + 1 + 1) / 2) (by omega) le_rfl]

theorem height_one : height 1 = 0 := rfl

/-- The height never exceeds the leaf count. -/
theorem height_le : ∀ n : Nat, height n ≤ n := by
  intro n
  induction n using Nat.strong_induction_on with
  | _ n ih =>
    match n with
    | 0 => exact Nat.le_refl 0
    | 1 => rw [height_one]; omega
    | m + 2 =>
      rw [height_succ (by omega)]
      have := ih ((m + 2 + 1) / 2) (by omega)
      omega

/-- At `n ≥ 2` the height is positive. -/
theorem height_pos {n : Nat} (h : 2 ≤ n) : 1 ≤ height n := by
  rw [height_succ h]; omega

/-- Total companion of `buildLevels`: the root of a level. -/
def rootP : Nat → List String → String
  | _, [] => ""
  | _, [x] => x
  | 0, _ :: _ :: _ => ""
  | fuel + 1, x :: y :: rest => rootP fuel (levelUpP (x :: y :: rest))

/-- Total companion of `buildProofLoop`: the proof nodes recorded for
an index. -/
def proofP : Nat → List String → Nat → List ProofNode
  | _, [], _ => []
  | _, [_], _ => []
  | 0, _ :: _ :: _, _ => []
  | fuel + 1, x :: y :: rest, ci =>
    proofStep (x :: y :: rest) ci :: proofP fuel (levelUpP (x :: y :: rest)) (ci / 2)

/-- With enough fuel, `buildLevels` succeeds with `rootP` on a valid
non-empty level. -/
theorem buildLevels_eq :
    ∀ (fuel : Nat) (l : List String), (∀ s ∈ l, matchesHexN 64 s = true) →
      1 ≤ l.length → height l.length ≤ fuel →
      buildLevels fuel l = .ok (rootP fuel l)
  | _, [], _, hlen, _ => by simp at hlen
  | fuel, [x], _, _, _ => by cases fuel <;> rfl
  | 0, x :: y :: rest, _, _, hf => by
    have := height_pos (n := (x :: y :: rest).length)
      (by simp only [List.length_cons]; omega)
    omega
  | fuel + 1, x :: y :: rest, h, _, hf => by
    have hnext := levelUp_eq (x :: y :: rest) h
    have hval := levelUpP_valid (x :: y :: rest) h
    have hlen := levelUpP_length (x :: y :: rest)
    have hh : height (levelUpP (x :: y :: rest)).length ≤ fuel := by
      rw [hlen]
      have := height_succ (n := (x :: y :: rest).length)
        (by simp only [List.length_cons]; omega)
      simp only [List.length_cons] at *
      omega
    have hlen1 : 1 ≤ (levelUpP (x :: y :: rest)).length := by
      rw [hlen]; simp only [List.length_cons]; omega
    show (do
      let next ← levelUp (x :: y :: rest)
      buildLevels fuel next) = _
    rw [hnext]
    show buildLevels fuel (levelUpP (x :: y :: rest)) = _
    rw [buildLevels_eq fuel (levelUpP (x :: y :: rest)) hval hlen1 hh]
    rfl

/-- The root is a valid hash. -/
theorem rootP_valid :
    ∀ (fuel : Nat) (l : List String), (∀ s ∈ l, matchesHexN 64 s = true) →
      1 ≤ l.length → height l.length ≤ fuel →
      matchesHexN 64 (rootP fuel l) = true
  | _, [], _, hlen, _ => by simp at hlen
  | fuel, [x], h, _, _ => by
    cases fuel <;> exact h x (by simp)
  | 0, x :: y :: rest, _, _, hf => by
    have := height_pos (n := (x :: y :: rest).length)
      (by simp only [List.length_cons]; omega)
    omega
  | fuel + 1, x :: y :: rest, h, _, hf => by
    have hval := levelUpP_valid (x :: y :: rest) h
    have hlen := levelUpP_length (x :: y :: rest)
    have hh : height (levelUpP (x :: y :: rest)).length ≤ fuel := by
      rw [hlen]
      have := height_succ (n := (x :: y :: rest).length)
        (by simp only [List.length_cons]; omega)
      simp only [List.length_cons] at *
      omega
    have hlen1 : 1 ≤ (levelUpP (x :: y :: rest)).length := by
      rw [hlen]; simp only [List.length_cons]; omega
    exact rootP_valid fuel (levelUpP (x :: y :: rest)) hval hlen1 hh

/-- With enough fuel, `buildProofLoop` succeeds, appending `proofP`
to the accumulator and returning `rootP`. -/
theorem buildProofLoop_eq :
    ∀ (fuel : Nat) (l : List String) (ci : Nat) (acc : List ProofNode),
      (∀ s ∈ l, matchesHexN 64 s = true) → 1 ≤ l.length →
      height l.length ≤ fuel →
      buildProofLoop fuel l ci acc = .ok (acc ++ proofP fuel l ci, rootP fuel l)
  | _, [], _, _, _, hlen, _ => by simp at hlen
  | fuel, [x], _, acc, _, _, _ => by
    cases fuel <;> simp [buildProofLoop, proofP, rootP]
  | 0, x :: y :: rest, _, _, _, _, hf => by
    have := height_pos (n := (x :: y :: rest).length)
      (by simp only [List.length_cons]; omega)
    omega
  | fuel + 1, x :: y :: rest, ci, acc, h, _, hf => by
    have hnext := levelUp_eq (x :: y :: rest) h
    have hval := levelUpP_valid (x :: y :: rest) h
    have hlen := levelUpP_length (x :: y :: rest)
    have hh : height (levelUpP (x :: y :: rest)).length ≤ fuel := by
      rw [hlen]
      have := height_succ (n := (x :: y :: rest).length)
        (by simp only [List.length_cons]; omega)
      simp only [List.length_cons] at *
      omega
    have hlen1 : 1 ≤ (levelUpP (x :: y :: rest)).length := by
      rw [hlen]; simp only [List.length_cons]; omega
    show (do
      let next ← levelUp (x :: y :: rest)
      buildProofLoop fuel next (ci / 2)
        (acc ++ [proofStep (x :: y :: rest) ci])) = _
    rw [hnext]
    show buildProofLoop fuel (levelUpP (x :: y :: rest)) (ci / 2)
      (acc ++ [proofStep (x :: y :: rest) ci]) = _
    rw [buildProofLoop_eq fuel (levelUpP (x :: y :: rest)) (ci / 2)
      (acc ++ [proofStep (x :: y :: rest) ci]) hval hlen1 hh]
    simp [proofP, rootP]

/-- An in-range `getD` is a member. -/
theorem getD_mem_of_lt {l : List String} {i : Nat} (h : i < l.length) :
    l.getD i "" ∈ l := by
  rw [List.getD_eq_getElem l "" h]
  exact List.getElem_mem h

/-- The recorded proof has exactly the tree height's length. -/
theorem proofP_length :
    ∀ (fuel : Nat) (l : List String) (ci : Nat),
      1 ≤ l.length → height l.length ≤ fuel →
      (proofP fuel l ci).length = height l.length
  | _, [], _, hlen, _ => by simp at hlen
  | fuel, [x], _, _, _ => by cases fuel <;> rfl
  | 0, x :: y :: rest, _, _, hf => by
    have := height_pos (n := (x :: y :: rest).length)
      (by simp only [List.length_cons]; omega)
    omega
  | fuel + 1, x :: y :: rest, ci, _, hf => by
    have hlen := levelUpP_length (x :: y :: rest)
    have hs := height_succ (n := (x :: y :: rest).length)
      (by simp only [List.length_cons]; omega)
    have hh : height (levelUpP (x :: y :: rest)).length ≤ fuel := by
      rw [hlen]
      simp only [List.length_cons] at *
      omega
    have hlen1 : 1 ≤ (levelUpP (x :: y :: rest)).length := by
      rw [hlen]; simp only [List.length_cons]; omega
    show (proofStep (x :: y :: rest) ci :: _).length = _
    rw [List.length_cons,
      proofP_length fuel (levelUpP (x :: y :: rest)) (ci / 2) hlen1 hh, hlen, hs]

/-- Every recorded node has a valid hash drawn from the current level
and a position `left` or `right` determined by the index parity. -/
theorem proofP_nodes :
    ∀ (fuel : Nat) (l : List String) (ci : Nat),
      (∀ s ∈ l, matchesHexN 64 s = true) → ci < l.length →
      ∀ nd ∈ proofP fuel l ci,
        matchesHexN 64 nd.hash = true ∧
          (nd.position = "left" ∨ nd.position = "right")
  | _, [], _, _, hci, _ => by simp at hci
  | fuel, [x], _, _, _, _ => by cases fuel <;> simp [proofP]
  | 0, x :: y :: rest, _, _, _, _ => by simp [proofP]
  | fuel + 1, x :: y :: rest, ci, h, hci, nd => by
    intro hnd
    have hlen := levelUpP_length (x :: y :: rest)
    have hval := levelUpP_valid (x :: y :: rest) h
    have hci2 : ci / 2 < (levelUpP (x :: y :: rest)).length := by
      rw [hlen]; simp only [List.length_cons] at *; omega
    rcases List.mem_cons.mp hnd with rfl | hnd2
    · constructor
      · unfold proofStep
        by_cases hp : ci % 2 == 0
        · rw [if_pos hp]
          show matchesHexN 64 (if ci + 1 < (x :: y :: rest).length then _ else _) = true
          by_cases hlt : ci + 1 < (x :: y :: rest).length
          · rw [if_pos hlt]
            exact h _ (getD_mem_of_lt hlt)
          · rw [if_neg hlt]
            exact h _ (getD_mem_of_lt hci)
        · rw [if_neg hp]
          show matchesHexN 64 ((x :: y :: rest).getD (ci - 1) "") = true
          exact h _ (getD_mem_of_lt (by simp only [List.length_cons] at *; omega))
      · unfold proofStep
        by_cases hp : ci % 2 == 0
        · rw [if_pos hp]; right; rfl
        · rw [if_neg hp]; left; rfl
    · exact proofP_nodes fuel (levelUpP (x :: y :: rest)) (ci / 2) hval hci2 nd hnd2

/-- Strict loop, even index, positions agreeing and the
odd-duplication rule satisfied: hash with the sibling on the right. -/
theorem verifyLoop_cons_even {node : ProofNode} {rest : List ProofNode}
    {current : String} {ci cn : Nat}
    (hpar : ci % 2 = 0) (hpos : node.position = "right")
    (hdup : ci + 1 ≥ cn → node.hash = current) :
    verifyLoop (node :: rest) current ci cn = (do
      let parent ← hashPair current node.hash
      verifyLoop rest parent (ci / 2) ((cn + 1) / 2)) := by
  rw [verifyLoop, hpos]
  rw [if_neg (by simp [hpar])]
  rw [if_neg (by
    simp only [hpar]
    rintro ⟨h1, h2⟩
    exact h2 (hdup (by simpa using h1)))]
  simp

/-- Strict loop, odd index with the sibling in range: hash with the
sibling on the left. -/
theorem verifyLoop_cons_odd {node : ProofNode} {rest : List ProofNode}
    {current : String} {ci cn : Nat}
    (hpar : ci % 2 = 1) (hpos : node.position = "left") (hlt : ci < cn) :
    verifyLoop (node :: rest) current ci cn = (do
      let parent ← hashPair node.hash current
      verifyLoop rest parent (ci / 2) ((cn + 1) / 2)) := by
  rw [verifyLoop, hpos]
  rw [if_neg (by simp [hpar])]
  rw [if_neg (by
    simp only [hpar]
    rintro ⟨h1, h2⟩
    simp at h1
    omega)]
  simp

/-- Strict loop: a recorded position disagreeing with the parity of
the current index is rejected. -/
theorem verifyLoop_cons_posErr {node : ProofNode} {rest : List ProofNode}
    {current : String} {ci cn : Nat}
    (hne : node.position ≠ (if ci % 2 == 1 then "left" else "right")) :
    verifyLoop (node :: rest) current ci cn = .error .invalidProof := by
  rw [verifyLoop, if_pos hne]

/-- Strict loop: a sibling index out of range with a recorded hash
different from the running hash is rejected. -/
theorem verifyLoop_cons_dupErr {node : ProofNode} {rest : List ProofNode}
    {current : String} {ci cn : Nat}
    (hge : (if ci % 2 == 1 then ci - 1 else ci + 1) ≥ cn)
    (hne : node.hash ≠ current) :
    verifyLoop (node :: rest) current ci cn = .error .invalidProof := by
  rw [verifyLoop]
  by_cases hpos : node.position ≠ (if ci % 2 == 1 then "left" else "right")
  · rw [if_pos hpos]
  · rw [if_neg hpos, if_pos ⟨hge, hne⟩]

/-- The strict loop reconstructs the level root from the proof that
`proofP` records. -/
theorem verifyLoop_ok :
    ∀ (fuel : Nat) (l : List String) (ci : Nat),
      (∀ s ∈ l, matchesHexN 64 s = true) → ci < l.length →
      height l.length ≤ fuel →
      verifyLoop (proofP fuel l ci) (l.getD ci "") ci l.length =
        .ok (rootP fuel l)
  | _, [], _, _, hci, _ => by simp at hci
  | fuel, [x], ci2, _, hb, _ => by
    have h0 : ci2 = 0 := Nat.lt_one_iff.mp (by simpa using hb)
    cases fuel <;> (subst h0; rfl)
  | 0, x :: y :: rest, _, _, _, hf => by
    have := height_pos (n := (x :: y :: rest).length)
      (by simp only [List.length_cons]; omega)
    omega
  | fuel + 1, x :: y :: rest, ci, h, hci, hf => by
    have hlen := levelUpP_length (x :: y :: rest)
    have hval := levelUpP_valid (x :: y :: rest) h
    have hs := height_succ (n := (x :: y :: rest).length)
      (by simp only [List.length_cons]; omega)
    have hh : height (levelUpP (x :: y :: rest)).length ≤ fuel := by
      rw [hlen]
      simp only [List.length_cons] at *
      omega
    have hci2 : ci / 2 < (levelUpP (x :: y :: rest)).length := by
      rw [hlen]; simp only [List.length_cons] at *; omega
    have hln2 : (levelUpP (x :: y :: rest)).length =
        ((x :: y :: rest).length + 1) / 2 := hlen
    have iht := verifyLoop_ok fuel (levelUpP (x :: y :: rest)) (ci / 2) hval hci2 hh
    show verifyLoop (proofStep (x :: y :: rest) ci :: _) _ ci (x :: y :: rest).length =
      .ok (rootP fuel (levelUpP (x :: y :: rest)))
    by_cases hpar : ci % 2 = 0
    · have hpb : (ci % 2 == 0) = true := by simp [hpar]
      have hpos : (proofStep (x :: y :: rest) ci).position = "right" := by
        unfold proofStep; rw [if_pos hpb]
      have hhash : (proofStep (x :: y :: rest) ci).hash =
          (if ci + 1 < (x :: y :: rest).length then (x :: y :: rest).getD (ci + 1) ""
           else (x :: y :: rest).getD ci "") := by
        unfold proofStep; rw [if_pos hpb]
      have hdup : ci + 1 ≥ (x :: y :: rest).length →
          (proofStep (x :: y :: rest) ci).hash = (x :: y :: rest).getD ci "" := by
        intro hge
        rw [hhash, if_neg (by omega)]
      rw [verifyLoop_cons_even hpar hpos hdup]
      have hsibv : matchesHexN 64 ((proofStep (x :: y :: rest) ci).hash) = true := by
        rw [hhash]
        split
        · exact h _ (getD_mem_of_lt (by assumption))
        · exact h _ (getD_mem_of_lt hci)
      rw [hashPair_eq (h _ (getD_mem_of_lt hci)) hsibv]
      have hget := levelUpP_getD (x :: y :: rest) (ci / 2)
        (by simp only [List.length_cons] at *; omega)
      rw [show 2 * (ci / 2) = ci by omega] at hget
      show verifyLoop _ (pureHash ((x :: y :: rest).getD ci "")
        ((proofStep (x :: y :: rest) ci).hash)) (ci / 2)
        (((x :: y :: rest).length + 1) / 2) = _
      rw [show pureHash ((x :: y :: rest).getD ci "")
          ((proofStep (x :: y :: rest) ci).hash) =
          (levelUpP (x :: y :: rest)).getD (ci / 2) "" by rw [hget, hhash]]
      rw [← hln2]
      exact iht
    · have hpar1 : ci % 2 = 1 := Nat.mod_two_eq_zero_or_one ci |>.resolve_left hpar
      have hpb : (ci % 2 == 0) = false := by simp [hpar1]
      have hpos : (proofStep (x :: y :: rest) ci).position = "left" := by
        unfold proofStep; rw [if_neg (by simp [hpb])]
      have hhash : (proofStep (x :: y :: rest) ci).hash =
          (x :: y :: rest).getD (ci - 1) "" := by
        unfold proofStep; rw [if_neg (by simp [hpb])]
      rw [verifyLoop_cons_odd hpar1 hpos hci]
      have hsibv : matchesHexN 64 ((proofStep (x :: y :: rest) ci).hash) = true := by
        rw [hhash]
        exact h _ (getD_mem_of_lt (by simp only [List.length_cons] at *; omega))
      rw [hashPair_eq hsibv (h _ (getD_mem_of_lt hci))]
      have hget := levelUpP_getD (x :: y :: rest) (ci / 2)
        (by simp only [List.length_cons] at *; omega)
      rw [show 2 * (ci / 2) + 1 = ci by omega] at hget
      rw [show 2 * (ci / 2) = ci - 1 by omega] at hget
      rw [if_pos hci] at hget
      show verifyLoop _ (pureHash ((proofStep (x :: y :: rest) ci).hash)
        ((x :: y :: rest).getD ci "")) (ci / 2)
        (((x :: y :: rest).length + 1) / 2) = _
      rw [show pureHash ((proofStep (x :: y :: rest) ci).hash)
          ((x :: y :: rest).getD ci "") =
          (levelUpP (x :: y :: rest)).getD (ci / 2) "" by rw [hget, hhash]]
      rw [← hln2]
      exact iht

/-- Node validation passes on nodes with valid hashes and positions. -/
theorem checkNodes_ok :
    ∀ nodes : List ProofNode,
      (∀ nd ∈ nodes, matchesHexN 64 nd.hash = true ∧
        (nd.position = "left" ∨ nd.position = "right")) →
      checkNodes nodes = .ok ()
  | [], _ => rfl
  | nd :: rest, h => by
    obtain ⟨hh, hp⟩ := h nd (by simp)
    unfold checkNodes
    rw [if_neg (by simp [hh])]
    rw [if_neg (by rcases hp with hp | hp <;> simp [hp])]
    exact checkNodes_ok rest fun x hx => h x (by simp [hx])

/-- `BuildRoot` on a valid non-empty leaf list succeeds with the pure
root. -/
theorem BuildRoot_eq {L : List String}
    (hv : ∀ s ∈ L, matchesHexN 64 s = true) (h1 : 1 ≤ L.length) :
    BuildRoot L = .ok (rootP L.length L) := by
  unfold BuildRoot
  rw [if_neg (by
    intro hc
    rw [List.isEmpty_iff] at hc
    subst hc
    simp at h1)]
  rw [if_neg (by simp [List.all_eq_true.mpr hv])]
  by_cases hone : L.length = 1
  · obtain ⟨x, rfl⟩ := List.length_eq_one.mp hone
    rw [if_pos (by simp)]
    rfl
  · rw [if_neg (by simp [hone])]
    exact buildLevels_eq L.length L hv h1 (height_le _)

/-- `BuildProof` on a valid leaf list with an in-range index succeeds
with the pure proof and root. -/
theorem BuildProof_eq {L : List String} {i : Nat}
    (hv : ∀ s ∈ L, matchesHexN 64 s = true) (hi : i < L.length) :
    BuildProof L (↑i) = .ok (proofP L.length L i, rootP L.length L) := by
  unfold BuildProof
  rw [if_neg (by
    intro hc
    rw [List.isEmpty_iff] at hc
    subst hc
    simp at hi)]
  rw [if_neg (by
    simp only [Bool.or_eq_true, decide_eq_true_eq]
    omega)]
  rw [if_neg (by simp [List.all_eq_true.mpr hv])]
  by_cases hone : L.length = 1
  · obtain ⟨x, rfl⟩ := List.length_eq_one.mp hone
    have hi0 : i = 0 := by simp at hi; omega
    subst hi0
    rw [if_pos (by simp)]
    rfl
  · rw [if_neg (by simp [hone])]
    have hb := buildProofLoop_eq L.length L i [] hv (by omega) (height_le _)
    rw [show (↑i : Int).toNat = i from Int.toNat_natCast i, hb]
    simp

/-- The strict `VerifyProof` accepts the proof and root that the pure
builders produce. -/
theorem VerifyProof_roundtrip {L : List String} {i : Nat}
    (hv : ∀ s ∈ L, matchesHexN 64 s = true) (hi : i < L.length) :
    VerifyProof (L.getD i "") (↑i) (↑L.length)
      (proofP L.length L i) (rootP L.length L) = .ok true := by
  have hleaf : matchesHexN 64 (L.getD i "") = true := hv _ (getD_mem_of_lt hi)
  have hroot : matchesHexN 64 (rootP L.length L) = true :=
    rootP_valid L.length L hv (by omega) (height_le _)
  unfold VerifyProof
  rw [if_neg (by simp only [hleaf, Bool.not_true]; exact Bool.false_ne_true)]
  rw [if_neg (by simp only [hroot, Bool.not_true]; exact Bool.false_ne_true)]
  rw [if_neg (by omega)]
  rw [if_neg (by
    simp only [Bool.or_eq_true, decide_eq_true_eq]
    omega)]
  by_cases hone : L.length = 1
  · obtain ⟨x, rfl⟩ := List.length_eq_one.mp hone
    have hi0 : i = 0 := by simp at hi; omega
    subst hi0
    rw [if_pos (by simp)]
    rw [if_neg (by simp [proofP])]
    simp
    rfl
  · rw [if_neg (by
      simp only [beq_iff_eq]
      intro hc
      exact hone (by exact_mod_cast hc))]
    rw [if_neg (by
      simp only [Int.toNat_natCast, ne_eq, Decidable.not_not]
      exact proofP_length L.length L i (by omega) (height_le _))]
    rw [checkNodes_ok _ (proofP_nodes L.length L i hv hi)]
    rw [Int.toNat_natCast, Int.toNat_natCast,
      verifyLoop_ok L.length L i hv hi (height_le _)]
    simp

/-- The index the strict loop works with at level `ℓ` (the original
index halved `ℓ` times). -/
def idxAt (ci ℓ : Nat) : Nat := ci / 2 ^ ℓ

/-- The side the strict loop expects at level `ℓ`, recomputed from the
parity of the current index. -/
def expectedPosAt (ci ℓ : Nat) : String :=
  if idxAt ci ℓ % 2 == 1 then "left" else "right"

/-- The sibling index the strict loop computes at level `ℓ`. -/
def sibIndexAt (ci ℓ : Nat) : Nat :=
  if idxAt ci ℓ % 2 == 1 then idxAt ci ℓ - 1 else idxAt ci ℓ + 1

/-- The level width after `ℓ` halvings (rounding up) of `n`. -/
def iterCeil : Nat → Nat → Nat
  | n, 0 => n
  | n, ℓ + 1 => iterCeil ((n + 1) / 2) ℓ

/-- The running hash of the strict loop after consuming the listed
nodes (folding by the recorded positions, as the loop does). -/
def foldNodes : List ProofNode → String → String
  | [], current => current
  | nd :: rest, current =>
    foldNodes rest
      (if nd.position == "right" then pureHash current nd.hash
       else pureHash nd.hash current)

theorem idxAt_succ (ci ℓ : Nat) : idxAt ci (ℓ + 1) = idxAt (ci / 2) ℓ := by
  unfold idxAt
  rw [Nat.div_div_eq_div_mul, pow_succ, Nat.mul_comm 2 (2 ^ ℓ), Nat.mul_comm]

theorem idxAt_zero (ci : Nat) : idxAt ci 0 = ci := Nat.div_one ci

/-- One passing step of the strict loop: position agreeing, the
duplication gate not tripped. -/
theorem verifyLoop_cons_step {node : ProofNode} {rest : List ProofNode}
    {current : String} {ci cn : Nat}
    (hgate : ¬((if ci % 2 == 1 then ci - 1 else ci + 1) ≥ cn ∧ node.hash ≠ current))
    (hpos : node.position = (if ci % 2 == 1 then "left" else "right")) :
    verifyLoop (node :: rest) current ci cn = (do
      let parent ←
        if node.position == "right" then hashPair current node.hash
        else hashPair node.hash current
      verifyLoop rest parent (ci / 2) ((cn + 1) / 2)) := by
  rw [verifyLoop, if_neg (by simpa using hpos), if_neg hgate]

/-- The strict loop rejects with `InvalidProof` whenever some level
carries a position disagreeing with the recomputed one, or an
out-of-range sibling whose recorded hash differs from the running
hash. -/
theorem verifyLoop_invalid :
    ∀ (nodes : List ProofNode) (current : String) (ci cn : Nat),
      matchesHexN 64 current = true →
      (∀ nd ∈ nodes, matchesHexN 64 nd.hash = true) →
      ∀ ℓ, ℓ < nodes.length →
        ((nodes.getD ℓ default).position ≠ expectedPosAt ci ℓ ∨
          (sibIndexAt ci ℓ ≥ iterCeil cn ℓ ∧
            (nodes.getD ℓ default).hash ≠ foldNodes (nodes.take ℓ) current)) →
        verifyLoop nodes current ci cn = .error .invalidProof
  | [], _, _, _, _, _, ℓ, hl, _ => by simp at hl
  | nd :: rest, current, ci, cn, hcur, hv, 0, _, hbad => by
    simp only [List.getD_cons_zero, List.take_zero, foldNodes] at hbad
    rw [expectedPosAt, idxAt_zero] at hbad
    rcases hbad with hbad | ⟨hge, hne⟩
    · exact verifyLoop_cons_posErr hbad
    · rw [sibIndexAt, idxAt_zero] at hge
      exact verifyLoop_cons_dupErr (by simpa using hge) hne
  | nd :: rest, current, ci, cn, hcur, hv, ℓ + 1, hl, hbad => by
    by_cases hpos : nd.position = (if ci % 2 == 1 then "left" else "right")
    · by_cases hgate : (if ci % 2 == 1 then ci - 1 else ci + 1) ≥ cn ∧ nd.hash ≠ current
      · exact verifyLoop_cons_dupErr hgate.1 hgate.2
      · rw [verifyLoop_cons_step hgate hpos]
        have hnd : matchesHexN 64 nd.hash = true := hv nd (by simp)
        have hexp : expectedPosAt (ci / 2) ℓ = expectedPosAt ci (ℓ + 1) := by
          unfold expectedPosAt
          rw [idxAt_succ]
        have hsib : sibIndexAt (ci / 2) ℓ = sibIndexAt ci (ℓ + 1) := by
          unfold sibIndexAt
          rw [idxAt_succ]
        have htrans :
            (rest.getD ℓ default).position ≠ expectedPosAt (ci / 2) ℓ ∨
              (sibIndexAt (ci / 2) ℓ ≥ iterCeil ((cn + 1) / 2) ℓ ∧
                (rest.getD ℓ default).hash ≠
                  foldNodes (rest.take ℓ)
                    (if nd.position == "right" then pureHash current nd.hash
                     else pureHash nd.hash current)) := by
          rw [hexp, hsib]
          exact hbad
        have hrec := fun par hpar hb =>
          verifyLoop_invalid rest par (ci / 2) ((cn + 1) / 2) hpar
            (fun x hx => hv x (by simp [hx])) ℓ (by simpa using hl) hb
        split_ifs with hpr
        · rw [hashPair_eq hcur hnd]
          show verifyLoop rest (pureHash current nd.hash) (ci / 2) ((cn + 1) / 2) = _
          rw [if_pos hpr] at htrans
          exact hrec _ (pureHash_valid _ _) htrans
        · rw [hashPair_eq hnd hcur]
          show verifyLoop rest (pureHash nd.hash current) (ci / 2) ((cn + 1) / 2) = _
          rw [if_neg hpr] at htrans
          exact hrec _ (pureHash_valid _ _) htrans
    · exact verifyLoop_cons_posErr hpos

/-- Guard discharge shared by the rejection lemmas: after the four
input validations, the strict `VerifyProof` of valid, in-range inputs
with `totalLeaves ≥ 2` reaches the length check. -/
theorem VerifyProof_invalid_of_bad_level {leaf root : String} {index total : Int}
    {proof : List ProofNode}
    (hleaf : matchesHexN 64 leaf = true) (hroot : matchesHexN 64 root = true)
    (h2 : 2 ≤ total) (hi0 : 0 ≤ index) (hit : index < total)
    (hlen : proof.length = height total.toNat)
    (hnodes : ∀ nd ∈ proof, matchesHexN 64 nd.hash = true ∧
      (nd.position = "left" ∨ nd.position = "right"))
    (ℓ : Nat) (hℓ : ℓ < proof.length)
    (hbad : (proof.getD ℓ default).position ≠ expectedPosAt index.toNat ℓ ∨
      (sibIndexAt index.toNat ℓ ≥ iterCeil total.toNat ℓ ∧
        (proof.getD ℓ default).hash ≠ foldNodes (proof.take ℓ) leaf)) :
    VerifyProof leaf index total proof root = .error .invalidProof := by
  unfold VerifyProof
  rw [if_neg (by simp only [hleaf, Bool.not_true]; exact Bool.false_ne_true)]
  rw [if_neg (by simp only [hroot, Bool.not_true]; exact Bool.false_ne_true)]
  rw [if_neg (by omega)]
  rw [if_neg (by
    simp only [Bool.or_eq_true, decide_eq_true_eq]
    omega)]
  rw [if_neg (by
    simp only [beq_iff_eq]
    omega)]
  rw [if_neg (by simp only [ne_eq, Decidable.not_not]; exact hlen)]
  rw [checkNodes_ok _ hnodes]
  rw [verifyLoop_invalid proof leaf index.toNat total.toNat hleaf
    (fun nd h => (hnodes nd h).1) ℓ hℓ hbad]

/-- The strict `VerifyProof` rejects, with `InvalidProof`, any proof
whose length differs from the tree height of `totalLeaves` (the
height of `1` being `0`). -/
theorem VerifyProof_reject_wrong_length {leaf root : String} {index total : Int}
    {proof : List ProofNode}
    (hleaf : matchesHexN 64 leaf = true) (hroot : matchesHexN 64 root = true)
    (h0 : 0 < total) (hi0 : 0 ≤ index) (hit : index < total)
    (hlen : proof.length ≠ height total.toNat) :
    VerifyProof leaf index total proof root = .error .invalidProof := by
  unfold VerifyProof
  rw [if_neg (by simp only [hleaf, Bool.not_true]; exact Bool.false_ne_true)]
  rw [if_neg (by simp only [hroot, Bool.not_true]; exact Bool.false_ne_true)]
  rw [if_neg (by omega)]
  rw [if_neg (by
    simp only [Bool.or_eq_true, decide_eq_true_eq]
    omega)]
  by_cases htot1 : total = 1
  · subst htot1
    rw [if_pos (by rfl)]
    rw [if_pos (by
      intro hc
      exact hlen (by rw [hc]; rfl))]
  · rw [if_neg (by
      simp only [beq_iff_eq]
      exact htot1)]
    rw [if_pos hlen]

end merkle

/-! ## Concrete values for the boundary checks -/

/-- A valid leaf: 64 times `a`. -/
def leafA : String := "aaaaaaaaaaaaaaaaaaaaaaaaaaaaaaaaaaaaaaaaaaaaaaaaaaaaaaaaaaaaaaaa"

/-- A valid leaf: 64 times `b`. -/
def leafB : String := "bbbbbbbbbbbbbbbbbbbbbbbbbbbbbbbbbbbbbbbbbbbbbbbbbbbbbbbbbbbbbbbb"

/-- A valid leaf: 64 times `c`. -/
def leafC : String := "cccccccccccccccccccccccccccccccccccccccccccccccccccccccccccccccc"

/-- A valid hash: 64 times `d`. -/
def leafD : String := "dddddddddddddddddddddddddddddddddddddddddddddddddddddddddddddddd"

/-- An uppercase-hex seed: 64 times `A` (Go `hex.DecodeString`
accepts it; the lowercase validators do not). -/
def upperSeed : String := "AAAAAAAAAAAAAAAAAAAAAAAAAAAAAAAAAAAAAAAAAAAAAAAAAAAAAAAAAAAAAAAA"

/-- Go `[]byte(s)` on an ASCII string: the character codes. -/
def asciiBytes (s : String) : List Nat := s.data.map Char.toNat

/-- A structurally valid manifest for the seal boundary check. -/
def manifestOK : ledger.Manifest :=
  { merkleRoot := leafA, signature := leafA ++ leafB, publicKey := leafC
    timestamp := 5 }

/-- A policy satisfying every frozen invariant, with the 86400-second
interval of boundary scenario G. -/
def pol86400 : policy.RotationPolicy :=
  { policyVersion := "1.0"
    issuer := { name := "Alpha", id := "rva-issuer-1" }
    constraints :=
      { hashAlg := "sha256", allowedHashAlgs := ["sha256"]
        domainSeparator := "RVA_NODE:v1", minDepth := 1, maxDepth := 64 }
    epochs := { intervalSeconds := 86400, idFormat := "numeric_ascending" }
    cutover := { requirePrevAnchor := true, strictMonotonicEpoch := true } }

/-- The same policy with a 3600-second interval (below the production
safety floor). -/
def pol3600 : policy.RotationPolicy :=
  { pol86400 with epochs := { intervalSeconds := 3600, idFormat := "numeric_ascending" } }

/-! ## Properties of the signing layer -/

theorem newKey_take {seed : List Nat} (h : seed.length = 32) :
    (ed25519.NewKeyFromSeed seed).take 32 = seed := by
  unfold ed25519.NewKeyFromSeed ed25519.pubOfSeed
  rw [← h, List.take_left]

theorem newKey_public {seed : List Nat} (h : seed.length = 32) :
    ed25519.Public (ed25519.NewKeyFromSeed seed) = seed := by
  unfold ed25519.Public ed25519.NewKeyFromSeed ed25519.pubOfSeed
  rw [show (32 : Nat) = seed.length from h.symm, List.drop_left]

theorem sign_bytes {seed : List Nat} (msg : List Nat) (h : seed.length = 32) :
    ed25519.Sign (ed25519.NewKeyFromSeed seed) msg = seed ++ msg := by
  unfold ed25519.Sign
  rw [newKey_take h]

theorem verify_sign {seed msg : List Nat} (h : seed.length = 32) :
    ed25519.Verify (ed25519.Public (ed25519.NewKeyFromSeed seed)) msg
      (ed25519.Sign (ed25519.NewKeyFromSeed seed) msg) = true := by
  rw [newKey_public h, sign_bytes msg h]
  unfold ed25519.Verify
  simp

theorem verify_other_msg {seed msg msg2 : List Nat} (h : seed.length = 32)
    (hne : msg2 ≠ msg) :
    ed25519.Verify (ed25519.Public (ed25519.NewKeyFromSeed seed)) msg2
      (ed25519.Sign (ed25519.NewKeyFromSeed seed) msg) = false := by
  rw [newKey_public h, sign_bytes msg h]
  unfold ed25519.Verify
  rw [beq_eq_false_iff_ne]
  intro hc
  exact hne (List.append_cancel_left hc).symm

/-- `SignHashHex` on valid inputs: the message handed to Ed25519 is
the raw 32 bytes decoded from the digest hex, the key is derived from
the decoded seed, and both outputs are re-encoded lowercase. -/
theorem SignHashHex_eq {d s : String}
    (hd : matchesHexN 64 d = true) (hs : matchesHexN 64 s = true) :
    sign.SignHashHex d s = .ok
      (hexEncode (ed25519.Sign (ed25519.NewKeyFromSeed ((hexDecode s).getD []))
        ((hexDecode d).getD [])),
       hexEncode (ed25519.Public (ed25519.NewKeyFromSeed ((hexDecode s).getD [])))) := by
  obtain ⟨msg, hm, hml, -, -⟩ := hexDecode_ok (n := 32) d hd
  obtain ⟨seed, hsd, hsl, -, -⟩ := hexDecode_ok (n := 32) s hs
  unfold sign.SignHashHex
  rw [if_neg (by simp only [hd, Bool.not_true]; exact Bool.false_ne_true)]
  rw [if_neg (by simp only [hs, Bool.not_true]; exact Bool.false_ne_true)]
  rw [hm, hsd]
  show (if msg.length ≠ 32 then _ else _) = _
  rw [if_neg (by omega)]
  show (if seed.length ≠ 32 then _ else _) = _
  rw [if_neg (by omega)]
  rfl

/-- `VerifyHashHex` on the exact outputs of `SignHashHex`: all three
validations pass, the decodes undo the encodes, and the symbolic
Ed25519 check accepts. -/
theorem VerifyHashHex_of_sign {d s : String}
    (hd : matchesHexN 64 d = true) (hs : matchesHexN 64 s = true) :
    sign.VerifyHashHex d
      (hexEncode (ed25519.Sign (ed25519.NewKeyFromSeed ((hexDecode s).getD []))
        ((hexDecode d).getD [])))
      (hexEncode (ed25519.Public (ed25519.NewKeyFromSeed ((hexDecode s).getD [])))) =
      .ok true := by
  obtain ⟨msg, hm, hml, hmb, -⟩ := hexDecode_ok (n := 32) d hd
  obtain ⟨seed, hsd, hsl, hsb, -⟩ := hexDecode_ok (n := 32) s hs
  rw [hm, hsd]
  show sign.VerifyHashHex d (hexEncode (ed25519.Sign (ed25519.NewKeyFromSeed seed) msg))
    (hexEncode (ed25519.Public (ed25519.NewKeyFromSeed seed))) = .ok true
  rw [sign_bytes msg hsl, newKey_public hsl]
  have hsigb : ∀ b ∈ seed ++ msg, b < 256 := by
    intro b hb
    rcases List.mem_append.mp hb with h | h
    · exact hsb b h
    · exact hmb b h
  have hsighex : matchesHexN 128 (hexEncode (seed ++ msg)) = true := by
    have := matchesHexN_hexEncode (seed ++ msg) hsigb
    rwa [show (seed ++ msg).length = 64 by simp [hsl, hml],
      show 2 * 64 = 128 from rfl] at this
  have hpubhex : matchesHexN 64 (hexEncode seed) = true := by
    have := matchesHexN_hexEncode seed hsb
    rwa [hsl, show 2 * 32 = 64 from rfl] at this
  unfold sign.VerifyHashHex
  rw [if_neg (by simp only [hd, Bool.not_true]; exact Bool.false_ne_true)]
  rw [if_neg (by simp only [hsighex, Bool.not_true]; exact Bool.false_ne_true)]
  rw [if_neg (by simp only [hpubhex, Bool.not_true]; exact Bool.false_ne_true)]
  rw [hm]
  show (if msg.length ≠ 32 then _ else _) = _
  rw [if_neg (by omega)]
  rw [hexDecode_hexEncode (seed ++ msg) hsigb]
  show (if (seed ++ msg).length ≠ 64 then _ else _) = _
  rw [if_neg (by simp [hsl, hml])]
  rw [hexDecode_hexEncode seed hsb]
  show (if seed.length ≠ 32 then _ else _) = _
  rw [if_neg (by omega)]
  rw [show ed25519.Verify seed msg (seed ++ msg) = true by
    unfold ed25519.Verify; simp]
  rfl

/-- `VerifyHashHex` against a different valid digest fails with the
distinguished `ErrVerificationFailed`. -/
theorem VerifyHashHex_other_digest {d d2 s : String}
    (hd : matchesHexN 64 d = true) (hd2 : matchesHexN 64 d2 = true)
    (hs : matchesHexN 64 s = true) (hne : d2 ≠ d) :
    sign.VerifyHashHex d2
      (hexEncode (ed25519.Sign (ed25519.NewKeyFromSeed ((hexDecode s).getD []))
        ((hexDecode d).getD [])))
      (hexEncode (ed25519.Public (ed25519.NewKeyFromSeed ((hexDecode s).getD [])))) =
      .error .verificationFailed := by
  obtain ⟨msg, hm, hml, hmb, -⟩ := hexDecode_ok (n := 32) d hd
  obtain ⟨msg2, hm2, hml2, -, -⟩ := hexDecode_ok (n := 32) d2 hd2
  obtain ⟨seed, hsd, hsl, hsb, -⟩ := hexDecode_ok (n := 32) s hs
  have hmsgne : msg2 ≠ msg := by
    intro hc
    exact hexDecode_inj (n := 32) hd2 hd hne (by rw [hm, hm2, hc])
  rw [hm, hsd]
  show sign.VerifyHashHex d2 (hexEncode (ed25519.Sign (ed25519.NewKeyFromSeed seed) msg))
    (hexEncode (ed25519.Public (ed25519.NewKeyFromSeed seed))) = _
  rw [sign_bytes msg hsl, newKey_public hsl]
  have hsigb : ∀ b ∈ seed ++ msg, b < 256 := by
    intro b hb
    rcases List.mem_append.mp hb with h | h
    · exact hsb b h
    · exact hmb b h
  have hsighex : matchesHexN 128 (hexEncode (seed ++ msg)) = true := by
    have := matchesHexN_hexEncode (seed ++ msg) hsigb
    rwa [show (seed ++ msg).length = 64 by simp [hsl, hml],
      show 2 * 64 = 128 from rfl] at this
  have hpubhex : matchesHexN 64 (hexEncode seed) = true := by
    have := matchesHexN_hexEncode seed hsb
    rwa [hsl, show 2 * 32 = 64 from rfl] at this
  unfold sign.VerifyHashHex
  rw [if_neg (by simp only [hd2, Bool.not_true]; exact Bool.false_ne_true)]
  rw [if_neg (by simp only [hsighex, Bool.not_true]; exact Bool.false_ne_true)]
  rw [if_neg (by simp only [hpubhex, Bool.not_true]; exact Bool.false_ne_true)]
  rw [hm2]
  show (if msg2.length ≠ 32 then _ else _) = _
  rw [if_neg (by omega)]
  rw [hexDecode_hexEncode (seed ++ msg) hsigb]
  show (if (seed ++ msg).length ≠ 64 then _ else _) = _
  rw [if_neg (by simp [hsl, hml])]
  rw [hexDecode_hexEncode seed hsb]
  show (if seed.length ≠ 32 then _ else _) = _
  rw [if_neg (by omega)]
  rw [show ed25519.Verify seed msg2 (seed ++ msg) = false by
    unfold ed25519.Verify
    rw [beq_eq_false_iff_ne]
    intro hc
    exact hmsgne (List.append_cancel_left hc).symm]
  rfl

/-- Package `sign`'s derive on a valid seed: `(pubHex, privHex)`. -/
theorem sign_derive_eq {s : String} (hs : matchesHexN 64 s = true) :
    sign.DeriveKeyPairFromSeedHex s = .ok
      (hexEncode (ed25519.Public (ed25519.NewKeyFromSeed ((hexDecode s).getD []))),
       hexEncode (ed25519.NewKeyFromSeed ((hexDecode s).getD []))) := by
  obtain ⟨seed, hsd, hsl, -, -⟩ := hexDecode_ok (n := 32) s hs
  unfold sign.DeriveKeyPairFromSeedHex
  rw [if_neg (by simp only [hs, Bool.not_true]; exact Bool.false_ne_true)]
  rw [hsd]
  show (if seed.length ≠ 32 then _ else _) = _
  rw [if_neg (by omega)]
  rfl

/-- `derive.go`'s derive on any seed string Go hex-decodes to 32
bytes: `(privHex, pubHex)` — the components the other copy returns,
swapped. -/
theorem derive_go_eq {s : String} {seed : List Nat}
    (hdec : hexDecode s = some seed) (hlen : seed.length = 32) :
    derive.DeriveKeyPairFromSeedHex s = .ok
      (hexEncode (ed25519.NewKeyFromSeed seed),
       hexEncode (ed25519.Public (ed25519.NewKeyFromSeed seed))) := by
  unfold derive.DeriveKeyPairFromSeedHex
  rw [hdec]
  show (if seed.length ≠ 32 then _ else _) = _
  rw [if_neg (by omega)]

/-- Length of a hex encoding. -/
theorem hexEncode_length (bs : List Nat) : (hexEncode bs).length = 2 * bs.length :=
  hexEncode_chars_length bs

/-- The signature over the raw decoded digest differs from a
signature over the ASCII bytes of the digest's hex form (their byte
counts already differ: 32 against 64). -/
theorem sign_raw_ne_ascii {d : String} {seed : List Nat}
    (hd : matchesHexN 64 d = true) (hsl : seed.length = 32) :
    hexEncode (ed25519.Sign (ed25519.NewKeyFromSeed seed) ((hexDecode d).getD [])) ≠
      hexEncode (ed25519.Sign (ed25519.NewKeyFromSeed seed) (asciiBytes d)) := by
  obtain ⟨msg, hm, hml, -, -⟩ := hexDecode_ok (n := 32) d hd
  rw [hm]
  show hexEncode (ed25519.Sign (ed25519.NewKeyFromSeed seed) msg) ≠ _
  rw [sign_bytes msg hsl, sign_bytes (asciiBytes d) hsl]
  intro hc
  have hlen := congrArg String.length hc
  rw [hexEncode_length, hexEncode_length] at hlen
  have hdlen : d.data.length = 64 := by
    have := (Bool.and_eq_true_iff.mp hd).1
    exact beq_iff_eq.mp this
  simp only [List.length_append, hsl, hml, asciiBytes, List.length_map, hdlen] at hlen
  omega

/-! ## The validators against the regular expressions -/

/-- The character class of the validators, spelled as the regular
expression ranges `a-f` and `0-9`. -/
theorem isLowerHexChar_iff (c : Char) :
    isLowerHexChar c = true ↔ (('a' ≤ c ∧ c ≤ 'f') ∨ ('0' ≤ c ∧ c ≤ '9')) := by
  unfold isLowerHexChar
  rw [Bool.or_eq_true, Bool.and_eq_true, Bool.and_eq_true]
  rw [Char.le_def, Char.le_def, Char.le_def, Char.le_def]
  simp only [decide_eq_true_eq]
  constructor
  · rintro (⟨h1, h2⟩ | ⟨h1, h2⟩)
    · exact Or.inr ⟨h1, h2⟩
    · exact Or.inl ⟨h1, h2⟩
  · rintro (⟨h1, h2⟩ | ⟨h1, h2⟩)
    · exact Or.inr ⟨h1, h2⟩
    · exact Or.inl ⟨h1, h2⟩

/-- The validator pattern `^[a-f0-9]{n}$`, spelled out: exactly `n`
characters, each in `a-f` or `0-9`. -/
theorem matchesHexN_iff (n : Nat) (s : String) :
    matchesHexN n s = true ↔
      (s.length = n ∧ ∀ c ∈ s.data, ('a' ≤ c ∧ c ≤ 'f') ∨ ('0' ≤ c ∧ c ≤ '9')) := by
  unfold matchesHexN
  rw [Bool.and_eq_true, beq_iff_eq, List.all_eq_true]
  constructor
  · rintro ⟨h1, h2⟩
    exact ⟨h1, fun c hc => (isLowerHexChar_iff c).mp (h2 c hc)⟩
  · rintro ⟨h1, h2⟩
    exact ⟨h1, fun c hc => (isLowerHexChar_iff c).mpr (h2 c hc)⟩

/-- `Char` order is the order of the code points. -/
theorem char_le_iff {a b : Char} : a ≤ b ↔ a.toNat ≤ b.toNat := by
  rw [Char.le_def]
  exact ⟨fun h => h, fun h => h⟩

/-- An uppercase hex character fails the class. -/
theorem upper_not_lowerHex {c : Char} (h1 : 'A' ≤ c) (h2 : c ≤ 'F') :
    isLowerHexChar c = false := by
  have g1 : 65 ≤ c.toNat := char_le_iff.mp h1
  have g2 : c.toNat ≤ 70 := char_le_iff.mp h2
  unfold isLowerHexChar
  simp only [Bool.or_eq_false_iff, Bool.and_eq_false_iff]
  constructor
  · right
    simp only [decide_eq_false_iff_not, not_le]
    omega
  · left
    simp only [decide_eq_false_iff_not, not_le]
    omega

/-! ## Properties of the policy gate -/

/-- `List.contains` agrees with membership (lawful `BEq` on
strings). -/
theorem contains_eq_true_iff_mem (l : List String) (a : String) :
    l.contains a = true ↔ a ∈ l := by
  simp [List.contains_iff_exists_mem_beq]

/-- `ValidateInvariants` passes exactly when every frozen invariant
holds. -/
theorem ValidateInvariants_none_iff (p : policy.RotationPolicy) :
    policy.ValidateInvariants p = none ↔
      (p.constraints.hashAlg = "sha256" ∧
       "sha256" ∈ p.constraints.allowedHashAlgs ∧
       p.constraints.domainSeparator = "RVA_NODE:v1" ∧
       1 ≤ p.constraints.minDepth ∧ p.constraints.maxDepth ≤ 64 ∧
       86400 ≤ p.epochs.intervalSeconds ∧
       p.epochs.idFormat = "numeric_ascending" ∧
       p.cutover.requirePrevAnchor = true ∧
       p.cutover.strictMonotonicEpoch = true) := by
  unfold policy.ValidateInvariants
  constructor
  · intro h
    split_ifs at h with h1 h2 h3 h4 h5 h6 h7
    push_neg at h1 h3 h6
    have h2m : "sha256" ∈ p.constraints.allowedHashAlgs := by
      have hc2 : p.constraints.allowedHashAlgs.contains "sha256" = true := by
        cases hcb : p.constraints.allowedHashAlgs.contains "sha256" with
        | false => rw [hcb] at h2; simp at h2
        | true => rfl
      exact (contains_eq_true_iff_mem _ _).mp hc2
    have h4a : 1 ≤ p.constraints.minDepth := by omega
    have h4b : p.constraints.maxDepth ≤ 64 := by omega
    have h7a : p.cutover.requirePrevAnchor = true := by
      cases hcb : p.cutover.requirePrevAnchor with
      | false => exact absurd (Or.inl (by rw [hcb]; rfl)) h7
      | true => rfl
    have h7b : p.cutover.strictMonotonicEpoch = true := by
      cases hcb : p.cutover.strictMonotonicEpoch with
      | false => exact absurd (Or.inr (by rw [hcb]; rfl)) h7
      | true => rfl
    exact ⟨h1, h2m, h3, h4a, h4b, by omega, h6, h7a, h7b⟩
  · rintro ⟨e1, e2, e3, e4, e5, e6, e7, e8, e9⟩
    rw [if_neg (by simp [e1])]
    rw [if_neg (by
      simp [(contains_eq_true_iff_mem _ _).mpr e2, e2])]
    rw [if_neg (by simp [e3])]
    rw [if_neg (by omega)]
    rw [if_neg (by omega)]
    rw [if_neg (by simp [e7])]
    rw [if_neg (by simp [e8, e9])]

/-- Every failure of the gate is an `AUDIT_FAIL` message. -/
theorem ValidateInvariants_auditFail (p : policy.RotationPolicy) (msg : String)
    (h : policy.ValidateInvariants p = some msg) :
    ∃ detail, msg = "AUDIT_FAIL: " ++ detail := by
  unfold policy.ValidateInvariants at h
  split_ifs at h <;> exact ⟨_, (Option.some_injective _ h).symm⟩

/-! ## Properties of the ledger -/

/-- When every register stamp is at or before `ts`, the replay since
`ts` is empty. -/
theorem ListRegistersSince_empty (ts : Nat) (st : ledger.LedgerFile)
    (h : ∀ e ∈ st.getD [], ∀ r, e = .register r → r.timestamp ≤ ts) :
    ledger.ListRegistersSince ts st = .ok [] := by
  cases st with
  | none => rfl
  | some es =>
    rw [show ledger.ListRegistersSince ts (some es) =
      .ok (es.filterMap fun e =>
        match e with
        | .register r => if r.timestamp > ts then some r else none
        | .seal _ => none) from rfl]
    congr 1
    rw [List.filterMap_eq_nil_iff]
    intro e he
    rcases e with r | sl
    · have := h (.register r) (by simpa using he) r rfl
      simp only
      rw [if_neg (by omega)]
    · rfl

/-- `AppendSeal` on a valid manifest with no register stamped after
the last seal fails with `NoRegistrations` and returns the file
unchanged. -/
theorem AppendSeal_noRegistrations (m : ledger.Manifest) (st : ledger.LedgerFile)
    (h1 : matchesHexN 64 m.merkleRoot = true)
    (h2 : matchesHexN 128 m.signature = true)
    (h3 : matchesHexN 64 m.publicKey = true)
    (hnone : ∀ e ∈ st.getD [], ∀ r, e = .register r →
      r.timestamp ≤ ledger.getLastSealTimestamp st) :
    ledger.AppendSeal m st = (.error .noRegistrations, st) := by
  unfold ledger.AppendSeal
  rw [if_neg (by simp only [h1, Bool.not_true]; exact Bool.false_ne_true)]
  rw [if_neg (by simp only [h2, Bool.not_true]; exact Bool.false_ne_true)]
  rw [if_neg (by simp only [h3, Bool.not_true]; exact Bool.false_ne_true)]
  rw [ListRegistersSince_empty _ st hnone]
  rfl

/-- One valid `AppendRegister` appends exactly one register line. -/
theorem AppendRegister_ok (now : Nat) (hash : String) (cj : List Nat)
    (st : ledger.LedgerFile) (h : matchesHexN 64 hash = true) :
    ledger.AppendRegister now hash cj st =
      (.ok (), some (st.getD [] ++ [.register (ledger.registerEntry now hash cj)])) := by
  unfold ledger.AppendRegister
  rw [if_neg (by simp only [h, Bool.not_true]; exact Bool.false_ne_true)]
  rfl

/-- Valid appends starting from an existing file accumulate their
register lines in call order. -/
theorem runAppends_some :
    ∀ (calls : List (Nat × String × List Nat)) (es : List ledger.Entry),
      (∀ c ∈ calls, matchesHexN 64 c.2.1 = true) →
      ledger.runAppends calls (some es) =
        some (es ++ calls.map fun c => .register (ledger.registerEntry c.1 c.2.1 c.2.2))
  | [], es, _ => by simp [ledger.runAppends]
  | c :: rest, es, h => by
    have hc := h c (by simp)
    show ledger.runAppends rest (ledger.AppendRegister c.1 c.2.1 c.2.2 (some es)).2 = _
    rw [AppendRegister_ok c.1 c.2.1 c.2.2 (some es) hc]
    show ledger.runAppends rest
      (some (es ++ [.register (ledger.registerEntry c.1 c.2.1 c.2.2)])) = _
    rw [runAppends_some rest _ fun x hx => h x (by simp [hx])]
    simp

/-- Replaying from the zero timestamp over a file of register lines
with positive stamps returns them all, in order. -/
theorem ListRegistersSince_all :
    ∀ calls : List (Nat × String × List Nat),
      (∀ c ∈ calls, 0 < c.1) →
      ledger.ListRegistersSince 0
        (some (calls.map fun c => .register (ledger.registerEntry c.1 c.2.1 c.2.2))) =
        .ok (calls.map fun c => ledger.registerEntry c.1 c.2.1 c.2.2)
  | [], _ => rfl
  | c :: rest, h => by
    have iht := ListRegistersSince_all rest fun x hx => h x (by simp [hx])
    rw [show ledger.ListRegistersSince 0 (some ((c :: rest).map fun c =>
        ledger.Entry.register (ledger.registerEntry c.1 c.2.1 c.2.2))) =
      .ok (((c :: rest).map fun c =>
        ledger.Entry.register (ledger.registerEntry c.1 c.2.1 c.2.2)).filterMap fun e =>
          match e with
          | .register r => if r.timestamp > 0 then some r else none
          | .seal _ => none) from rfl]
    rw [show ledger.ListRegistersSince 0 (some (rest.map fun c =>
        ledger.Entry.register (ledger.registerEntry c.1 c.2.1 c.2.2))) =
      .ok ((rest.map fun c =>
        ledger.Entry.register (ledger.registerEntry c.1 c.2.1 c.2.2)).filterMap fun e =>
          match e with
          | .register r => if r.timestamp > 0 then some r else none
          | .seal _ => none) from rfl] at iht
    simp only [Except.ok.injEq] at iht
    simp only [List.map_cons, List.filterMap_cons]
    rw [if_pos (show (ledger.registerEntry c.1 c.2.1 c.2.2).timestamp > 0
      from h c (by simp))]
    rw [iht]

/-! ## The claims -/

/-- C1: Merkle round-trip — for every ordered sequence `L` of `n ≥ 1`
leaves, each matching `^[a-f0-9]{64}$`, and every index `i < n`,
`VerifyProof` with leaf `L[i]`, index `i`, totalLeaves `n`, the proof
returned by `BuildProof(L, i)` and the root returned by
`BuildRoot(L)` returns `true` with no error. -/
theorem C1_merkle_round_trip (L : List String) (i : Nat)
    (hv : ∀ s ∈ L, matchesHexN 64 s = true) (hi : i < L.length) :
    ∃ (pf : List merkle.ProofNode) (rt : String),
      merkle.BuildProof L (↑i) = .ok (pf, rt) ∧
      merkle.BuildRoot L = .ok rt ∧
      merkle.VerifyProof (L.getD i "") (↑i) (↑L.length) pf rt = .ok true :=
  ⟨merkle.proofP L.length L i, merkle.rootP L.length L,
    merkle.BuildProof_eq hv hi, merkle.BuildRoot_eq hv (by omega),
    merkle.VerifyProof_roundtrip hv hi⟩

/-- Witness for C1 at the three-leaf sequence and its last index. -/
theorem C1_merkle_round_trip_witness :
    (2 < [leafA, leafB, leafC].length) ∧
    (∃ (pf : List merkle.ProofNode) (rt : String),
      merkle.BuildProof [leafA, leafB, leafC] 2 = .ok (pf, rt) ∧
      merkle.BuildRoot [leafA, leafB, leafC] = .ok rt ∧
      merkle.VerifyProof ([leafA, leafB, leafC].getD 2 "") 2 3 pf rt = .ok true) :=
  ⟨by decide, C1_merkle_round_trip [leafA, leafB, leafC] 2 (by decide) (by decide)⟩

/-- C2 (amended to the second, strict copy of `VerifyProof`): with
`totalLeaves ≥ 2` and inputs passing the input validations, a level
whose recorded position disagrees with the side recomputed from the
current index parity, or whose sibling index is out of range at that
level while the recorded hash differs from the running hash, makes
`VerifyProof` return `InvalidProof`. -/
theorem C2_verify_index_binding {leaf root : String} {index total : Int}
    {proof : List merkle.ProofNode}
    (hleaf : matchesHexN 64 leaf = true) (hroot : matchesHexN 64 root = true)
    (h2 : 2 ≤ total) (hi0 : 0 ≤ index) (hit : index < total)
    (hlen : proof.length = merkle.height total.toNat)
    (hnodes : ∀ nd ∈ proof, matchesHexN 64 nd.hash = true ∧
      (nd.position = "left" ∨ nd.position = "right"))
    (level : Nat) (hlev : level < proof.length)
    (hbad : (proof.getD level default).position ≠ merkle.expectedPosAt index.toNat level ∨
      (merkle.sibIndexAt index.toNat level ≥ merkle.iterCeil total.toNat level ∧
        (proof.getD level default).hash ≠ merkle.foldNodes (proof.take level) leaf)) :
    merkle.VerifyProof leaf index total proof root = .error .invalidProof :=
  merkle.VerifyProof_invalid_of_bad_level hleaf hroot h2 hi0 hit hlen hnodes
    level hlev hbad

/-- Witness for C2: a flipped position at the first level of a
two-leaf proof is rejected with `InvalidProof`. -/
theorem C2_verify_index_binding_witness :
    merkle.VerifyProof leafA 0 2 [⟨leafB, "left"⟩] leafD =
      .error .invalidProof :=
  C2_verify_index_binding (by decide) (by decide) (by decide) (by decide)
    (by decide) (by decide) (by decide) 0 (by decide) (Or.inl (by decide))

set_option maxRecDepth 20000 in
/-- Counterexample to C2 as stated over every `VerifyProof` of the
repository: the first (lenient) copy applies the recorded positions
without recomputation — a proof whose first position is flipped
(`left` where the parity of index 0 demands `right`) is accepted as
`true` rather than rejected with `InvalidProof`. -/
theorem C2_lenient_copy_counterexample :
    merkleFirst.VerifyProof leafA 0 2 [⟨leafB, "left"⟩]
      (merkle.pureHash leafB leafA) = .ok true ∧
    merkle.expectedPosAt 0 0 = "right" := by
  constructor
  · rfl
  · rfl

/-- C3 (amended to the second, strict copy of `VerifyProof`):
`BuildProof` returns a proof whose length is the tree height (the
iterated-halving count, `0` for one leaf), and the strict
`VerifyProof` rejects, with `InvalidProof`, any proof of a different
length for the given `totalLeaves`. -/
theorem C3_proof_length_rule :
    (∀ (L : List String) (i : Nat),
      (∀ s ∈ L, matchesHexN 64 s = true) → i < L.length →
      ∃ (pf : List merkle.ProofNode) (rt : String),
        merkle.BuildProof L (↑i) = .ok (pf, rt) ∧
        pf.length = merkle.height L.length) ∧
    merkle.height 1 = 0 ∧
    (∀ (leaf root : String) (index total : Int) (proof : List merkle.ProofNode),
      matchesHexN 64 leaf = true → matchesHexN 64 root = true →
      0 < total → 0 ≤ index → index < total →
      proof.length ≠ merkle.height total.toNat →
      merkle.VerifyProof leaf index total proof root = .error .invalidProof) := by
  refine ⟨?_, rfl, ?_⟩
  · intro L i hv hi
    exact ⟨_, _, merkle.BuildProof_eq hv hi,
      merkle.proofP_length _ _ _ (by omega) (merkle.height_le _)⟩
  · intro leaf root index total proof h1 h2 h3 h4 h5 h6
    exact merkle.VerifyProof_reject_wrong_length h1 h2 h3 h4 h5 h6

/-- Witness for C3: a three-leaf proof has length `height 3 = 2`, and
the strict `VerifyProof` rejects an empty proof for four leaves. -/
theorem C3_proof_length_rule_witness :
    (∃ (pf : List merkle.ProofNode) (rt : String),
      merkle.BuildProof [leafA, leafB, leafC] 2 = .ok (pf, rt) ∧
      pf.length = merkle.height 3) ∧
    merkle.VerifyProof leafA 0 4 [] leafD = .error .invalidProof :=
  ⟨C3_proof_length_rule.1 [leafA, leafB, leafC] 2 (by decide) (by decide),
   C3_proof_length_rule.2.2 leafA leafD 0 4 [] (by decide) (by decide)
     (by decide) (by decide) (by decide) (by decide)⟩

set_option maxRecDepth 40000 in
/-- Counterexample to C3 as stated over every `VerifyProof` of the
repository: the first (lenient) copy enforces no length rule beyond
non-emptiness — a proof of length 2 for `totalLeaves = 2` (height 1)
is accepted as `true` rather than rejected with `InvalidProof`. -/
theorem C3_lenient_copy_counterexample :
    merkleFirst.VerifyProof leafA 0 2 [⟨leafB, "right"⟩, ⟨leafC, "right"⟩]
      (merkle.pureHash (merkle.pureHash leafA leafB) leafC) = .ok true ∧
    merkle.height 2 = 1 := by
  constructor
  · rfl
  · rfl

/-- C4: seal precondition and atomicity — `AppendSeal` with a
structurally valid manifest, called when no register line is stamped
strictly after the last seal's manifest timestamp (in particular on
an empty or absent ledger), returns `NoRegistrations` and leaves the
file unchanged. -/
theorem C4_appendSeal_no_registrations (m : ledger.Manifest) (st : ledger.LedgerFile)
    (h1 : matchesHexN 64 m.merkleRoot = true)
    (h2 : matchesHexN 128 m.signature = true)
    (h3 : matchesHexN 64 m.publicKey = true)
    (hnone : ∀ e ∈ st.getD [], ∀ r, e = .register r →
      r.timestamp ≤ ledger.getLastSealTimestamp st) :
    ledger.AppendSeal m st = (.error .noRegistrations, st) :=
  AppendSeal_noRegistrations m st h1 h2 h3 hnone

set_option maxRecDepth 20000 in
/-- Witness for C4: sealing an absent ledger with a valid manifest. -/
theorem C4_appendSeal_no_registrations_witness :
    (matchesHexN 128 manifestOK.signature = true) ∧
    ledger.AppendSeal manifestOK none = (.error .noRegistrations, none) :=
  ⟨by decide,
   C4_appendSeal_no_registrations manifestOK none (by decide) (by decide)
     (by decide) (by simp)⟩

/-- C5: signer round-trip — for every valid digest `d` and seed `s`,
verifying the signature and public key returned by
`SignHashHex(d, s)` against `d` returns true with no error, and
against any other valid digest returns `ErrVerificationFailed`
(Ed25519 taken at its contract: the symbolic model of
`crypto/ed25519`). -/
theorem C5_sign_verify_round_trip (d d2 s : String)
    (hd : matchesHexN 64 d = true) (hd2 : matchesHexN 64 d2 = true)
    (hs : matchesHexN 64 s = true) (hne : d2 ≠ d) :
    ∃ sigHex pubHex,
      sign.SignHashHex d s = .ok (sigHex, pubHex) ∧
      sign.VerifyHashHex d sigHex pubHex = .ok true ∧
      sign.VerifyHashHex d2 sigHex pubHex = .error .verificationFailed :=
  ⟨_, _, SignHashHex_eq hd hs, VerifyHashHex_of_sign hd hs,
    VerifyHashHex_other_digest hd hd2 hs hne⟩

/-- Witness for C5 at concrete digests and seed. -/
theorem C5_sign_verify_round_trip_witness :
    (leafB ≠ leafA) ∧
    (∃ sigHex pubHex,
      sign.SignHashHex leafA leafC = .ok (sigHex, pubHex) ∧
      sign.VerifyHashHex leafA sigHex pubHex = .ok true ∧
      sign.VerifyHashHex leafB sigHex pubHex = .error .verificationFailed) :=
  ⟨by decide,
   C5_sign_verify_round_trip leafA leafB leafC (by decide) (by decide)
     (by decide) (by decide)⟩

/-- C6: signing domain — the signature `SignHashHex(d, s)` produces
is the Ed25519 signature, under the key derived from the 32 bytes
decoded from `s`, over the raw 32 bytes decoded from `d`; it is not a
signature over the 64 ASCII bytes of the hex string `d`. -/
theorem C6_signing_domain (d s : String)
    (hd : matchesHexN 64 d = true) (hs : matchesHexN 64 s = true) :
    sign.SignHashHex d s = .ok
      (hexEncode (ed25519.Sign (ed25519.NewKeyFromSeed ((hexDecode s).getD []))
        ((hexDecode d).getD [])),
       hexEncode (ed25519.Public (ed25519.NewKeyFromSeed ((hexDecode s).getD [])))) ∧
    hexEncode (ed25519.Sign (ed25519.NewKeyFromSeed ((hexDecode s).getD []))
      ((hexDecode d).getD [])) ≠
    hexEncode (ed25519.Sign (ed25519.NewKeyFromSeed ((hexDecode s).getD []))
      (asciiBytes d)) := by
  obtain ⟨seed, hdec, hlen, -, -⟩ := hexDecode_ok (n := 32) s hs
  refine ⟨SignHashHex_eq hd hs, ?_⟩
  rw [show (hexDecode s).getD [] = seed from by rw [hdec]; rfl]
  exact sign_raw_ne_ascii hd hlen

/-- Witness for C6 at a concrete digest and seed. -/
theorem C6_signing_domain_witness :
    (matchesHexN 64 leafA = true) ∧
    (sign.SignHashHex leafA leafC = .ok
      (hexEncode (ed25519.Sign (ed25519.NewKeyFromSeed ((hexDecode leafC).getD []))
        ((hexDecode leafA).getD [])),
       hexEncode (ed25519.Public (ed25519.NewKeyFromSeed ((hexDecode leafC).getD [])))) ∧
    hexEncode (ed25519.Sign (ed25519.NewKeyFromSeed ((hexDecode leafC).getD []))
      ((hexDecode leafA).getD [])) ≠
    hexEncode (ed25519.Sign (ed25519.NewKeyFromSeed ((hexDecode leafC).getD []))
      (asciiBytes leafA))) :=
  ⟨by decide, C6_signing_domain leafA leafC (by decide) (by decide)⟩

set_option maxRecDepth 20000 in
/-- C7 (amended): every boundary validator accepts exactly its
pattern — `^[a-f0-9]{64}$` for digests, seeds and public keys,
`^[a-f0-9]{128}$` for signatures — and in particular rejects any
input with an uppercase hex character; but `derive.go`'s
`DeriveKeyPairFromSeedHex` performs no such validation and accepts an
uppercase seed (Go `hex.DecodeString` is case-insensitive). -/
theorem C7_hex_validators :
    (∀ s, sign.ValidateHashHex s = .ok () ↔
      (s.length = 64 ∧ ∀ c ∈ s.data, ('a' ≤ c ∧ c ≤ 'f') ∨ ('0' ≤ c ∧ c ≤ '9'))) ∧
    (∀ s, sign.ValidateSeedHex s = .ok () ↔
      (s.length = 64 ∧ ∀ c ∈ s.data, ('a' ≤ c ∧ c ≤ 'f') ∨ ('0' ≤ c ∧ c ≤ '9'))) ∧
    (∀ s, sign.ValidatePubKeyHex s = .ok () ↔
      (s.length = 64 ∧ ∀ c ∈ s.data, ('a' ≤ c ∧ c ≤ 'f') ∨ ('0' ≤ c ∧ c ≤ '9'))) ∧
    (∀ s, sign.ValidateSignatureHex s = .ok () ↔
      (s.length = 128 ∧ ∀ c ∈ s.data, ('a' ≤ c ∧ c ≤ 'f') ∨ ('0' ≤ c ∧ c ≤ '9'))) ∧
    (∀ (s : String) (c : Char), c ∈ s.data → 'A' ≤ c → c ≤ 'F' →
      sign.ValidateSeedHex s = .error .invalidHex) ∧
    derive.DeriveKeyPairFromSeedHex upperSeed = .ok (leafA ++ leafA, leafA) := by
  have gen : ∀ (n : Nat) (s : String),
      ((if !matchesHexN n s then (.error .invalidHex : Except sign.SignErr Unit)
        else .ok ()) = .ok ()) ↔ matchesHexN n s = true := by
    intro n s
    cases hm : matchesHexN n s <;> simp [hm]
  refine ⟨?_, ?_, ?_, ?_, ?_, ?_⟩
  · intro s
    unfold sign.ValidateHashHex
    rw [gen 64 s, matchesHexN_iff]
  · intro s
    unfold sign.ValidateSeedHex
    rw [gen 64 s, matchesHexN_iff]
  · intro s
    unfold sign.ValidatePubKeyHex
    rw [gen 64 s, matchesHexN_iff]
  · intro s
    unfold sign.ValidateSignatureHex
    rw [gen 128 s, matchesHexN_iff]
  · intro s c hc h1 h2
    have hfalse : matchesHexN 64 s = false := by
      cases hm : matchesHexN 64 s with
      | false => rfl
      | true =>
        obtain ⟨-, hall⟩ := (matchesHexN_iff 64 s).mp hm
        have hup := upper_not_lowerHex h1 h2
        have := (isLowerHexChar_iff c).mpr (hall c hc)
        rw [hup] at this
        cases this
    unfold sign.ValidateSeedHex
    rw [if_pos (by rw [hfalse]; rfl)]
  · rfl

set_option maxRecDepth 20000 in
/-- Witness for C7: a lowercase digest passes, an uppercase seed is
rejected by the validator. -/
theorem C7_hex_validators_witness :
    sign.ValidateHashHex leafA = .ok () ∧
    sign.ValidateSeedHex upperSeed = .error .invalidHex :=
  ⟨(C7_hex_validators.1 leafA).mpr (by decide),
   C7_hex_validators.2.2.2.2.1 upperSeed 'A' (by decide) (by decide) (by decide)⟩

set_option maxRecDepth 20000 in
/-- Counterexample to C7 as stated: `derive.go`'s
`DeriveKeyPairFromSeedHex` — a boundary function taking a hex-encoded
seed — accepts a seed made of uppercase hex characters instead of
rejecting it. -/
theorem C7_derive_accepts_uppercase :
    derive.DeriveKeyPairFromSeedHex upperSeed = .ok (leafA ++ leafA, leafA) ∧
    ('A' ∈ upperSeed.data ∧ ('A' ≤ 'A' ∧ 'A' ≤ 'F')) := by
  constructor
  · rfl
  · exact ⟨by decide, by decide, by decide⟩

/-- C8: register replay — after `k` successful `AppendRegister` calls
on a fresh (absent or empty) ledger and zero seals,
`ListRegistersSince` from the zero timestamp returns exactly the `k`
register records in append order; a missing ledger file yields the
empty list with no error. -/
theorem C8_register_replay :
    (∀ (calls : List (Nat × String × List Nat)) (st0 : ledger.LedgerFile),
      (st0 = none ∨ st0 = some []) →
      (∀ c ∈ calls, matchesHexN 64 c.2.1 = true ∧ 0 < c.1) →
      ledger.ListRegistersSince 0 (ledger.runAppends calls st0) =
        .ok (calls.map fun c => ledger.registerEntry c.1 c.2.1 c.2.2)) ∧
    ledger.ListRegistersSince 0 none = .ok [] := by
  refine ⟨?_, rfl⟩
  intro calls st0 hst h
  rcases hst with rfl | rfl
  · cases calls with
    | nil => rfl
    | cons c rest =>
      show ledger.ListRegistersSince 0
        (ledger.runAppends rest (ledger.AppendRegister c.1 c.2.1 c.2.2 none).2) = _
      rw [show (ledger.AppendRegister c.1 c.2.1 c.2.2 none).2 =
          some ([] ++ [.register (ledger.registerEntry c.1 c.2.1 c.2.2)]) from by
        rw [AppendRegister_ok c.1 c.2.1 c.2.2 none (h c (by simp)).1]
        rfl]
      rw [runAppends_some rest _ fun x hx => (h x (by simp [hx])).1]
      have hall := ListRegistersSince_all (c :: rest) fun x hx => (h x hx).2
      simpa using hall
  · rw [runAppends_some calls [] fun x hx => (h x hx).1]
    have hall := ListRegistersSince_all calls fun x hx => (h x hx).2
    simpa using hall

/-- Witness for C8: two appends on an absent ledger replay in order. -/
theorem C8_register_replay_witness :
    ledger.ListRegistersSince 0
      (ledger.runAppends [(1, leafA, []), (2, leafB, [])] none) =
      .ok [ledger.registerEntry 1 leafA [], ledger.registerEntry 2 leafB []] := by
  have h := C8_register_replay.1 [(1, leafA, []), (2, leafB, [])] none
    (Or.inl rfl) (by decide)
  simpa using h

/-- C9: policy gate — `ValidateInvariants` passes exactly when all
frozen invariants hold, every rejection is an `AUDIT_FAIL` error, a
policy with `interval_seconds = 3600` is rejected, and one with
`interval_seconds = 86400` and all other invariants satisfied
passes. -/
theorem C9_policy_gate :
    (∀ p, policy.ValidateInvariants p = none ↔
      (p.constraints.hashAlg = "sha256" ∧
       "sha256" ∈ p.constraints.allowedHashAlgs ∧
       p.constraints.domainSeparator = "RVA_NODE:v1" ∧
       1 ≤ p.constraints.minDepth ∧ p.constraints.maxDepth ≤ 64 ∧
       86400 ≤ p.epochs.intervalSeconds ∧
       p.epochs.idFormat = "numeric_ascending" ∧
       p.cutover.requirePrevAnchor = true ∧
       p.cutover.strictMonotonicEpoch = true)) ∧
    (∀ p msg, policy.ValidateInvariants p = some msg →
      ∃ detail, msg = "AUDIT_FAIL: " ++ detail) ∧
    policy.ValidateInvariants pol3600 =
      some ("AUDIT_FAIL: " ++ "rotation interval is below production safety limit (86400s)") ∧
    policy.ValidateInvariants pol86400 = none :=
  ⟨ValidateInvariants_none_iff, ValidateInvariants_auditFail, rfl, rfl⟩

/-- Witness for C9: the passing policy satisfies the spelled-out
invariants. -/
theorem C9_policy_gate_witness :
    policy.ValidateInvariants pol86400 = none ∧
    86400 ≤ pol86400.epochs.intervalSeconds :=
  ⟨(C9_policy_gate.1 pol86400).mpr (by decide), by decide⟩

/-- C10: the two `DeriveKeyPairFromSeedHex` functions return their
components swapped — the `sign`-package copy `(pubHex, privHex)`, the
`derive.go` copy `(privHex, pubHex)` — yet on every seed both accept
(64 lowercase hex) they derive the identical keypair. -/
theorem C10_derive_copies_agree (s : String) (hs : matchesHexN 64 s = true) :
    ∃ pubHex privHex,
      sign.DeriveKeyPairFromSeedHex s = .ok (pubHex, privHex) ∧
      derive.DeriveKeyPairFromSeedHex s = .ok (privHex, pubHex) := by
  obtain ⟨seed, hdec, hlen, -, -⟩ := hexDecode_ok (n := 32) s hs
  refine ⟨_, _, sign_derive_eq hs, ?_⟩
  rw [show (hexDecode s).getD [] = seed from by rw [hdec]; rfl]
  exact derive_go_eq hdec hlen

/-- Witness for C10 at a concrete seed. -/
theorem C10_derive_copies_agree_witness :
    (matchesHexN 64 leafC = true) ∧
    (∃ pubHex privHex,
      sign.DeriveKeyPairFromSeedHex leafC = .ok (pubHex, privHex) ∧
      derive.DeriveKeyPairFromSeedHex leafC = .ok (privHex, pubHex)) :=
  ⟨by decide, C10_derive_copies_agree leafC (by decide)⟩
